import Mathlib

/-!
Formal model of the stateful cache-aware router.

The definitions below are shallow embeddings of the Python sources:
`src/router/cache_map.py` (`GlobalCacheMap`, `PrefixTreeNode`),
`src/router/main.py` (the HTTP endpoint handlers), and
`src/scripts/mock_worker.py` (`BlockCache`).

Python dictionaries are modelled as association lists that preserve
insertion order (assignment replaces the value in place, a new key is
appended at the end), which matches CPython dict semantics.  Python sets
are modelled as duplicate-free lists with `sadd`/membership; every property
proved about them is membership-based except where iteration order is
explicitly relied on by the source (`min`, round-robin indexing), where the
modelled order is the order in which elements were inserted.
-/

abbrev WorkerId := String
abbrev BlockHash := String

/-- Lookup in an insertion-ordered association list (Python `d.get(k)` /
`d[k]`): returns the value of the first pair whose key matches. -/
def aget {κ ν : Type} [DecidableEq κ] : List (κ × ν) → κ → Option ν
  | [], _ => none
  | (k0, v0) :: rest, k => if k = k0 then some v0 else aget rest k

/-- Assignment in an insertion-ordered association list (Python
`d[k] = v`): replaces the value in place if the key exists, otherwise
appends the new pair at the end. -/
def aset {κ ν : Type} [DecidableEq κ] : List (κ × ν) → κ → ν → List (κ × ν)
  | [], k, v => [(k, v)]
  | (k0, v0) :: rest, k, v =>
      if k = k0 then (k0, v) :: rest else (k0, v0) :: aset rest k v

/-- Deletion from an association list (Python `del d[k]`). -/
def aremove {κ ν : Type} [DecidableEq κ] (d : List (κ × ν)) (k : κ) :
    List (κ × ν) :=
  d.filter (fun p => p.1 ≠ k)

/-- Python `set.add`: insert an element if it is not already present. -/
def sadd {α : Type} [DecidableEq α] (x : α) (l : List α) : List α :=
  if x ∈ l then l else l ++ [x]

theorem aget_aset {κ ν : Type} [DecidableEq κ] (d : List (κ × ν))
    (k k' : κ) (v : ν) :
    aget (aset d k v) k' = if k' = k then some v else aget d k' := by
  induction d with
  | nil => by_cases h : k' = k <;> simp [aset, aget, h]
  | cons p rest ih =>
      obtain ⟨k0, v0⟩ := p
      by_cases h0 : k = k0
      · subst h0
        by_cases h' : k' = k <;> simp [aset, aget, h']
      · by_cases h' : k' = k0
        · subst h'
          simp [aset, aget, h0, Ne.symm h0]
        · simp [aset, aget, h0, h', ih]

theorem aget_aremove {κ ν : Type} [DecidableEq κ] (d : List (κ × ν))
    (k k' : κ) :
    aget (aremove d k) k' = if k' = k then none else aget d k' := by
  induction d with
  | nil => by_cases h : k' = k <;> simp [aremove, aget, h]
  | cons p rest ih =>
      obtain ⟨k0, v0⟩ := p
      by_cases h0 : k0 = k
      · subst h0
        by_cases h' : k' = k0 <;>
          simp [aremove, List.filter, aget, h', ih] at ih ⊢ <;>
          simp [ih, h']
      · by_cases h' : k' = k0
        · subst h'
          simp [aremove, List.filter, h0, aget, Ne.symm h0]
        · simp [aremove, List.filter, h0, aget, h'] at ih ⊢
          simpa [h'] using ih

theorem mem_sadd {α : Type} [DecidableEq α] (x a : α) (l : List α) :
    a ∈ sadd x l ↔ a = x ∨ a ∈ l := by
  by_cases h : x ∈ l
  · simp only [sadd, if_pos h]
    constructor
    · exact Or.inr
    · rintro (rfl | ha)
      · exact h
      · exact ha
  · simp [sadd, if_neg h, or_comm]

theorem aget_mem_of_mem_keys {κ ν : Type} [DecidableEq κ]
    (d : List (κ × ν)) (k : κ) (hk : k ∈ d.map Prod.fst) :
    ∃ v, aget d k = some v ∧ (k, v) ∈ d := by
  induction d with
  | nil => simp at hk
  | cons p rest ih =>
      obtain ⟨k0, v0⟩ := p
      by_cases h : k = k0
      · subst h
        exact ⟨v0, by simp [aget], by simp⟩
      · simp only [List.map_cons, List.mem_cons] at hk
        rcases hk with hk | hk
        · exact absurd hk h
        · obtain ⟨v, hv, hmem⟩ := ih hk
          exact ⟨v, by simp [aget, h, hv], List.mem_cons_of_mem _ hmem⟩

theorem mem_keys_of_aget {κ ν : Type} [DecidableEq κ]
    (d : List (κ × ν)) (k : κ) (v : ν) (h : aget d k = some v) :
    k ∈ d.map Prod.fst := by
  induction d with
  | nil => simp [aget] at h
  | cons p rest ih =>
      obtain ⟨k0, v0⟩ := p
      by_cases hk : k = k0
      · subst hk; simp
      · simp only [aget, if_neg hk] at h
        simpa using Or.inr (ih h)

/-- Node of the prefix tree (`PrefixTreeNode` in `cache_map.py`):
`children` is the dict from block hash to child node, `workers` the set of
workers registered at this node. -/
inductive PrefixTreeNode : Type where
  | mk (children : List (BlockHash × PrefixTreeNode)) (workers : List WorkerId)

def PrefixTreeNode.children : PrefixTreeNode → List (BlockHash × PrefixTreeNode)
  | .mk c _ => c

def PrefixTreeNode.workers : PrefixTreeNode → List WorkerId
  | .mk _ w => w

def PrefixTreeNode.empty : PrefixTreeNode := .mk [] []

/-- Python `node.children.get(h)`. -/
def childNode (n : PrefixTreeNode) (h : BlockHash) : Option PrefixTreeNode :=
  aget n.children h

/-- Python `node.children[h] = c` (in-place replacement / append). -/
def setChild (n : PrefixTreeNode) (h : BlockHash) (c : PrefixTreeNode) :
    PrefixTreeNode :=
  .mk (aset n.children h c) n.workers

/-- The insertion walk of `update_block_sequence` (cache_map.py lines
55-60): descend along the sequence, creating missing children, adding the
worker to each traversed node's `workers`. -/
def addPath (w : WorkerId) : PrefixTreeNode → List BlockHash → PrefixTreeNode
  | n, [] => n
  | n, h :: rest =>
      let c := (childNode n h).getD PrefixTreeNode.empty
      setChild n h (addPath w (.mk c.children (sadd w c.workers)) rest)

/-- The removal walk of `_remove_worker_from_tree` (cache_map.py lines
84-92).  Note the Python loop does not `break` on a missing edge: it stays
at the current node and keeps scanning the remaining hashes. -/
def removeWalk (w : WorkerId) : PrefixTreeNode → List BlockHash → PrefixTreeNode
  | n, [] => n
  | n, h :: rest =>
      match childNode n h with
      | some c =>
          setChild n h
            (removeWalk w (.mk c.children (c.workers.filter (fun u => u ≠ w))) rest)
      | none => removeWalk w n rest

/-- Node reached by following a path of block hashes from `n`. -/
def nodeAtPath : PrefixTreeNode → List BlockHash → Option PrefixTreeNode
  | n, [] => some n
  | n, h :: rest =>
      match childNode n h with
      | some c => nodeAtPath c rest
      | none => none

/-- Worker set of the node at a given path (empty if the path is absent). -/
def workersAt (n : PrefixTreeNode) (p : List BlockHash) : List WorkerId :=
  match nodeAtPath n p with
  | some m => m.workers
  | none => []

/-- Router-side state of `GlobalCacheMap` (cache_map.py lines 14-26).
Field names follow the source: `map` is `_map`, `workerToHashes` is
`_worker_to_hashes`, `workerBlockSequences` is `_worker_block_sequences`,
`workerLoad` is `_worker_load`, `leastLoadedRRIndex` is
`_least_loaded_rr_index` (created lazily in the source, initially empty). -/
structure GlobalCacheMap : Type where
  map : List (BlockHash × List WorkerId)
  workerToHashes : List (WorkerId × List BlockHash)
  workerBlockSequences : List (WorkerId × List BlockHash)
  prefixTreeRoot : PrefixTreeNode
  workerLoad : List (WorkerId × Int)
  leastLoadedRRIndex : List (List WorkerId × Nat)

def initCM : GlobalCacheMap :=
  ⟨[], [], [], PrefixTreeNode.empty, [], []⟩

/-- `GlobalCacheMap.update` (cache_map.py lines 28-40). -/
def GlobalCacheMap.update (s : GlobalCacheMap) (w : WorkerId) (h : BlockHash) :
    GlobalCacheMap :=
  { s with
    map := aset s.map h (sadd w ((aget s.map h).getD [])),
    workerToHashes := aset s.workerToHashes w (sadd h ((aget s.workerToHashes w).getD [])),
    workerLoad := aset s.workerLoad w ((aget s.workerLoad w).getD 0) }

/-- `GlobalCacheMap._remove_worker_from_tree` (cache_map.py lines 76-92):
walks the stored sequence of the worker (if any) discarding the worker
from each node entered. -/
def removeWorkerFromTree (s : GlobalCacheMap) (w : WorkerId) : PrefixTreeNode :=
  match aget s.workerBlockSequences w with
  | none => s.prefixTreeRoot
  | some seq => removeWalk w s.prefixTreeRoot seq

/-- `GlobalCacheMap.update_block_sequence` (cache_map.py lines 42-60).
The source stores the new sequence first (line 49) and only then calls
`_remove_worker_from_tree` (line 52), so the removal walk follows the
**new** sequence, not the previously stored one. -/
def GlobalCacheMap.updateBlockSequence (s : GlobalCacheMap) (w : WorkerId)
    (blockHashes : List BlockHash) : GlobalCacheMap :=
  let s1 := { s with workerBlockSequences := aset s.workerBlockSequences w blockHashes }
  let root1 := removeWorkerFromTree s1 w
  { s1 with prefixTreeRoot := addPath w root1 blockHashes }

/-- Removal of a worker from one `_map` entry, deleting the entry if it
becomes empty.  This exact snippet appears twice in the source:
cache_map.py lines 65-68 (`evict`) and lines 107-110 (`sync_worker_state`
step 1). -/
def removeWorkerFromMapEntry (m : List (BlockHash × List WorkerId))
    (w : WorkerId) (h : BlockHash) : List (BlockHash × List WorkerId) :=
  match aget m h with
  | none => m
  | some ws =>
      if ws.filter (fun u => u ≠ w) = [] then aremove m h
      else aset m h (ws.filter (fun u => u ≠ w))

/-- `GlobalCacheMap.evict` (cache_map.py lines 62-74). -/
def GlobalCacheMap.evict (s : GlobalCacheMap) (w : WorkerId) (h : BlockHash) :
    GlobalCacheMap :=
  let r := match aget s.workerToHashes w with
    | none => s.workerToHashes
    | some hs => aset s.workerToHashes w (hs.filter (fun x => x ≠ h))
  { s with
    map := removeWorkerFromMapEntry s.map w h,
    workerToHashes := r,
    prefixTreeRoot := removeWorkerFromTree s w }

/-- Step 1 of `sync_worker_state` (cache_map.py lines 104-111): remove the
worker from `_map[h]` for every `h` in the given list, deleting entries
that become empty. -/
def removeFromMapList (m : List (BlockHash × List WorkerId)) (w : WorkerId) :
    List BlockHash → List (BlockHash × List WorkerId)
  | [] => m
  | h :: rest => removeFromMapList (removeWorkerFromMapEntry m w h) w rest

/-- Step 3's hash-map loop of `sync_worker_state` (cache_map.py lines
122-129): add the worker to `_map[h]` and `h` to `_worker_to_hashes[w]`
for every `h` in the list. -/
def addActiveHashes (s : GlobalCacheMap) (w : WorkerId) :
    List BlockHash → GlobalCacheMap
  | [] => s
  | h :: rest =>
      let s' := { s with
        map := aset s.map h (sadd w ((aget s.map h).getD [])),
        workerToHashes := aset s.workerToHashes w (sadd h ((aget s.workerToHashes w).getD [])) }
      addActiveHashes s' w rest

/-- `GlobalCacheMap.sync_worker_state` (cache_map.py lines 94-132). -/
def GlobalCacheMap.syncWorkerState (s : GlobalCacheMap) (w : WorkerId)
    (activeHashes : List BlockHash) : GlobalCacheMap :=
  let s1 := match aget s.workerToHashes w with
    | none => s
    | some hs =>
        { s with
          map := removeFromMapList s.map w hs,
          workerToHashes := aset s.workerToHashes w [] }
  let s2 := { s1 with prefixTreeRoot := removeWorkerFromTree s1 w }
  let s3 := if activeHashes = [] then s2
    else addActiveHashes (s2.updateBlockSequence w activeHashes) w activeHashes
  { s3 with workerLoad := aset s3.workerLoad w ((aget s3.workerLoad w).getD 0) }

/-- `GlobalCacheMap.update_load` (cache_map.py lines 181-184). -/
def GlobalCacheMap.updateLoad (s : GlobalCacheMap) (w : WorkerId) (l : Int) :
    GlobalCacheMap :=
  { s with workerLoad := aset s.workerLoad w l }

/-- Python `min(it)` over a nonempty list of ints (first minimum kept). -/
def minIntList : List Int → Int
  | [] => 0
  | x :: xs => xs.foldl (fun b y => if y < b then y else b) x

/-- `GlobalCacheMap._get_least_loaded_from_list` (cache_map.py lines
170-179).  Python `min(valid, key=load)` returns the first element
attaining the minimal load. -/
def getLeastLoadedFromList (tbl : List (WorkerId × Int))
    (candidates : List WorkerId) : Option WorkerId :=
  match candidates with
  | [] => none
  | c0 :: _ =>
      match candidates.filter (fun w => (aget tbl w).isSome) with
      | [] => some c0
      | v0 :: vs =>
          some (vs.foldl
            (fun b y => if (aget tbl y).getD 0 < (aget tbl b).getD 0 then y else b) v0)

/-- The traversal loop of `find_longest_prefix_match` (cache_map.py lines
149-168): `d` is `matched_length`, `bw`/`bl` the best worker and length so
far. -/
def findAux (tbl : List (WorkerId × Int)) :
    PrefixTreeNode → List BlockHash → Nat → Option WorkerId → Nat →
    Option WorkerId × Nat
  | _, [], _, bw, bl => (bw, bl)
  | n, h :: rest, d, bw, bl =>
      match childNode n h with
      | none => (bw, bl)
      | some c =>
          if c.workers = [] then findAux tbl c rest (d + 1) bw bl
          else findAux tbl c rest (d + 1) (getLeastLoadedFromList tbl c.workers) (d + 1)

/-- `GlobalCacheMap.find_longest_prefix_match` (cache_map.py lines
139-168).  The method performs no writes, so it is a pure function of the
state. -/
def GlobalCacheMap.findLongestPrefixMatch (s : GlobalCacheMap)
    (blockHashes : List BlockHash) : Option WorkerId × Nat :=
  findAux s.workerLoad s.prefixTreeRoot blockHashes 0 none 0

/-- Lexicographic comparison of strings by code points, as Python `sorted`
uses on `str`. -/
def strListLe : List Char → List Char → Bool
  | [], _ => true
  | _ :: _, [] => false
  | a :: as, b :: bs =>
      if a.toNat < b.toNat then true
      else if b.toNat < a.toNat then false
      else strListLe as bs

def strLe (a b : String) : Bool := strListLe a.data b.data

def insertSortedStr (x : String) : List String → List String
  | [] => [x]
  | y :: ys => if strLe x y then x :: y :: ys else y :: insertSortedStr x ys

/-- Python `sorted` on a list of strings (insertion sort; stable,
ascending by code points). -/
def sortStrings : List String → List String
  | [] => []
  | x :: xs => insertSortedStr x (sortStrings xs)

/-- `GlobalCacheMap.get_least_loaded_worker` (cache_map.py lines 186-222).
Returns the selected worker together with the updated state (the method
mutates the round-robin index). -/
def GlobalCacheMap.getLeastLoadedWorker (s : GlobalCacheMap)
    (candidates : Option (List WorkerId)) : Option WorkerId × GlobalCacheMap :=
  if s.workerLoad = [] then (none, s)
  else
    let pool := match candidates with
      | some cs => if cs = [] then s.workerLoad.map Prod.fst else cs
      | none => s.workerLoad.map Prod.fst
    let validPool := pool.filter (fun w => (aget s.workerLoad w).isSome)
    if validPool = [] then
      (match candidates with
       | some [] => none
       | some (c0 :: _) => some c0
       | none => none, s)
    else
      let minLoad := minIntList (validPool.map (fun w => (aget s.workerLoad w).getD 0))
      let mlw := validPool.filter (fun w => (aget s.workerLoad w).getD 0 = minLoad)
      let tieKey := sortStrings mlw
      let j := (aget s.leastLoadedRRIndex tieKey).getD 0
      let selected := mlw.getD (j % mlw.length) ""
      (some selected,
       { s with leastLoadedRRIndex := aset s.leastLoadedRRIndex tieKey (j + 1) })

example : (initCM.update "w" "h").map = [("h", ["w"])] := by rfl

example :
    ((initCM.syncWorkerState "w" ["a", "b"]).findLongestPrefixMatch ["a", "b"]) =
      (some "w", 2) := by rfl

example :
    ((initCM.updateLoad "a" 0).getLeastLoadedWorker none).1 = some "a" := by rfl

/-! ## Membership view of the forward and reverse indices -/

/-- Membership in the forward index: `w ∈ _map[h]` (absent keys read as
the empty set). -/
def inForward (s : GlobalCacheMap) (w : WorkerId) (h : BlockHash) : Prop :=
  w ∈ (aget s.map h).getD []

/-- Membership in the reverse index: `h ∈ _worker_to_hashes[w]`. -/
def inReverse (s : GlobalCacheMap) (w : WorkerId) (h : BlockHash) : Prop :=
  h ∈ (aget s.workerToHashes w).getD []

/-- Mutual consistency of the two indices — invariant (P1) of the spec. -/
def consistentIndexes (s : GlobalCacheMap) : Prop :=
  ∀ w h, inForward s w h ↔ inReverse s w h

theorem inForward_update (s : GlobalCacheMap) (w h w' h') :
    inForward (s.update w h) w' h' ↔ inForward s w' h' ∨ (w' = w ∧ h' = h) := by
  unfold inForward GlobalCacheMap.update
  simp only [aget_aset]
  by_cases hh : h' = h
  · subst hh
    simp [mem_sadd]
    tauto
  · simp [hh]

theorem inReverse_update (s : GlobalCacheMap) (w h w' h') :
    inReverse (s.update w h) w' h' ↔ inReverse s w' h' ∨ (w' = w ∧ h' = h) := by
  unfold inReverse GlobalCacheMap.update
  simp only [aget_aset]
  by_cases hw : w' = w
  · subst hw
    simp [mem_sadd]
    tauto
  · simp [hw]

theorem removeWorkerFromMapEntry_of_none {m : List (BlockHash × List WorkerId)}
    {w : WorkerId} {h : BlockHash} (hm : aget m h = none) :
    removeWorkerFromMapEntry m w h = m := by
  unfold removeWorkerFromMapEntry
  rw [hm]

theorem removeWorkerFromMapEntry_of_some {m : List (BlockHash × List WorkerId)}
    {w : WorkerId} {h : BlockHash} {ws : List WorkerId}
    (hm : aget m h = some ws) :
    removeWorkerFromMapEntry m w h =
      if ws.filter (fun u => u ≠ w) = [] then aremove m h
      else aset m h (ws.filter (fun u => u ≠ w)) := by
  unfold removeWorkerFromMapEntry
  rw [hm]

theorem mem_removeWorkerFromMapEntry (m : List (BlockHash × List WorkerId))
    (w : WorkerId) (h : BlockHash) (w' h') :
    w' ∈ (aget (removeWorkerFromMapEntry m w h) h').getD [] ↔
      w' ∈ (aget m h').getD [] ∧ ¬(w' = w ∧ h' = h) := by
  cases hm : aget m h with
  | none =>
      rw [removeWorkerFromMapEntry_of_none hm]
      by_cases hh : h' = h
      · subst hh; simp [hm]
      · simp [hh]
  | some ws =>
      rw [removeWorkerFromMapEntry_of_some hm]
      by_cases he : ws.filter (fun u => u ≠ w) = []
      · rw [if_pos he, aget_aremove]
        by_cases hh : h' = h
        · subst hh
          rw [if_pos rfl, hm]
          constructor
          · intro hx
            simp at hx
          · rintro ⟨hmem, hne⟩
            exfalso
            simp only [Option.getD_some] at hmem
            have hmem' : w' ∈ ws.filter (fun u => u ≠ w) := by
              simp only [List.mem_filter, hmem, true_and, decide_eq_true_eq]
              intro hww
              exact hne ⟨hww, rfl⟩
            rw [he] at hmem'
            simp at hmem'
        · rw [if_neg hh]
          simp [hh]
      · rw [if_neg he, aget_aset]
        by_cases hh : h' = h
        · subst hh
          rw [if_pos rfl, hm]
          simp only [Option.getD_some, List.mem_filter, decide_eq_true_eq]
          tauto
        · rw [if_neg hh]
          simp [hh]

theorem inForward_evict (s : GlobalCacheMap) (w h w' h') :
    inForward (s.evict w h) w' h' ↔
      inForward s w' h' ∧ ¬(w' = w ∧ h' = h) := by
  unfold inForward GlobalCacheMap.evict
  exact mem_removeWorkerFromMapEntry s.map w h w' h'

theorem inReverse_evict (s : GlobalCacheMap) (w h w' h') :
    inReverse (s.evict w h) w' h' ↔
      inReverse s w' h' ∧ ¬(w' = w ∧ h' = h) := by
  unfold inReverse GlobalCacheMap.evict
  cases hr : aget s.workerToHashes w with
  | none =>
      by_cases hw : w' = w
      · subst hw; simp [hr]
      · simp [hw]
  | some hs =>
      simp only [aget_aset]
      by_cases hw : w' = w
      · subst hw
        simp [hr, List.mem_filter]
      · simp [hw]

theorem mem_removeFromMapList (w : WorkerId) (w' : WorkerId) (h' : BlockHash) :
    ∀ (L : List BlockHash) (m : List (BlockHash × List WorkerId)),
    w' ∈ (aget (removeFromMapList m w L) h').getD [] ↔
      w' ∈ (aget m h').getD [] ∧ ¬(w' = w ∧ h' ∈ L) := by
  intro L
  induction L with
  | nil => intro m; simp [removeFromMapList]
  | cons h rest ih =>
      intro m
      rw [removeFromMapList, ih, mem_removeWorkerFromMapEntry]
      simp only [List.mem_cons]
      tauto

@[simp] theorem updateBlockSequence_map (s : GlobalCacheMap) (w seq) :
    (s.updateBlockSequence w seq).map = s.map := rfl

@[simp] theorem updateBlockSequence_workerToHashes (s : GlobalCacheMap) (w seq) :
    (s.updateBlockSequence w seq).workerToHashes = s.workerToHashes := rfl

@[simp] theorem updateBlockSequence_workerLoad (s : GlobalCacheMap) (w seq) :
    (s.updateBlockSequence w seq).workerLoad = s.workerLoad := rfl

@[simp] theorem addActiveHashes_workerLoad (w : WorkerId) :
    ∀ (L : List BlockHash) (s : GlobalCacheMap),
    (addActiveHashes s w L).workerLoad = s.workerLoad := by
  intro L
  induction L with
  | nil => intro s; rfl
  | cons h rest ih => intro s; rw [addActiveHashes, ih]

@[simp] theorem addActiveHashes_prefixTreeRoot (w : WorkerId) :
    ∀ (L : List BlockHash) (s : GlobalCacheMap),
    (addActiveHashes s w L).prefixTreeRoot = s.prefixTreeRoot := by
  intro L
  induction L with
  | nil => intro s; rfl
  | cons h rest ih => intro s; rw [addActiveHashes, ih]

@[simp] theorem addActiveHashes_workerBlockSequences (w : WorkerId) :
    ∀ (L : List BlockHash) (s : GlobalCacheMap),
    (addActiveHashes s w L).workerBlockSequences = s.workerBlockSequences := by
  intro L
  induction L with
  | nil => intro s; rfl
  | cons h rest ih => intro s; rw [addActiveHashes, ih]

theorem mem_map_addActiveHashes (w w' : WorkerId) (h' : BlockHash) :
    ∀ (L : List BlockHash) (s : GlobalCacheMap),
    w' ∈ (aget (addActiveHashes s w L).map h').getD [] ↔
      w' ∈ (aget s.map h').getD [] ∨ (w' = w ∧ h' ∈ L) := by
  intro L
  induction L with
  | nil => intro s; simp [addActiveHashes]
  | cons h rest ih =>
      intro s
      rw [addActiveHashes, ih]
      simp only [aget_aset, List.mem_cons]
      by_cases hh : h' = h
      · subst hh
        simp [mem_sadd]
        tauto
      · simp [hh]

theorem mem_rev_addActiveHashes (w w' : WorkerId) (h' : BlockHash) :
    ∀ (L : List BlockHash) (s : GlobalCacheMap),
    h' ∈ (aget (addActiveHashes s w L).workerToHashes w').getD [] ↔
      h' ∈ (aget s.workerToHashes w').getD [] ∨ (w' = w ∧ h' ∈ L) := by
  intro L
  induction L with
  | nil => intro s; simp [addActiveHashes]
  | cons h rest ih =>
      intro s
      rw [addActiveHashes, ih]
      simp only [aget_aset, List.mem_cons]
      by_cases hw : w' = w
      · subst hw
        simp [mem_sadd]
        tauto
      · simp [hw]

/-- Characterization of the forward index after `sync_worker_state`:
the worker's previous entries (as recorded by the reverse index) are
removed, then the active hashes are added; other workers are untouched. -/
theorem inForward_sync (s : GlobalCacheMap) (w : WorkerId) (A : List BlockHash)
    (w' : WorkerId) (h' : BlockHash) :
    inForward (s.syncWorkerState w A) w' h' ↔
      (inForward s w' h' ∧ ¬(w' = w ∧ h' ∈ (aget s.workerToHashes w).getD [])) ∨
      (w' = w ∧ h' ∈ A) := by
  unfold GlobalCacheMap.syncWorkerState inForward
  cases hr : aget s.workerToHashes w with
  | none =>
      dsimp only
      by_cases hA : A = []
      · subst hA
        rw [if_pos rfl]
        simp
      · rw [if_neg hA]
        rw [mem_map_addActiveHashes]
        simp
  | some hs =>
      dsimp only
      by_cases hA : A = []
      · subst hA
        rw [if_pos rfl]
        dsimp only
        rw [mem_removeFromMapList]
        simp [hr]
      · rw [if_neg hA]
        rw [mem_map_addActiveHashes, updateBlockSequence_map]
        dsimp only
        rw [mem_removeFromMapList]
        simp [hr]

/-- Characterization of the reverse index after `sync_worker_state`: the
synced worker's entry becomes exactly the set of active hashes; other
workers' entries are untouched. -/
theorem inReverse_sync (s : GlobalCacheMap) (w : WorkerId) (A : List BlockHash)
    (w' : WorkerId) (h' : BlockHash) :
    inReverse (s.syncWorkerState w A) w' h' ↔
      (if w' = w then h' ∈ A else inReverse s w' h') := by
  unfold GlobalCacheMap.syncWorkerState inReverse
  cases hr : aget s.workerToHashes w with
  | none =>
      dsimp only
      by_cases hA : A = []
      · subst hA
        rw [if_pos rfl]
        by_cases hw : w' = w
        · subst hw; simp [hr]
        · simp [hw]
      · rw [if_neg hA]
        rw [mem_rev_addActiveHashes]
        by_cases hw : w' = w
        · subst hw; simp [hr]
        · simp [hw]
  | some hs =>
      dsimp only
      by_cases hA : A = []
      · subst hA
        rw [if_pos rfl]
        dsimp only
        simp only [aget_aset]
        by_cases hw : w' = w
        · subst hw; simp
        · simp [hw]
      · rw [if_neg hA]
        rw [mem_rev_addActiveHashes, updateBlockSequence_workerToHashes]
        dsimp only
        simp only [aget_aset]
        by_cases hw : w' = w
        · subst hw; simp
        · simp [hw]

/-! ## Claim C3: index consistency in every reachable state -/

/-- The five mutating operations of `GlobalCacheMap` named by claim C3. -/
inductive CMOp : Type where
  | updateOp (w : WorkerId) (h : BlockHash)
  | evictOp (w : WorkerId) (h : BlockHash)
  | updateBlockSequenceOp (w : WorkerId) (seq : List BlockHash)
  | syncOp (w : WorkerId) (hs : List BlockHash)
  | updateLoadOp (w : WorkerId) (l : Int)

def applyCMOp (s : GlobalCacheMap) : CMOp → GlobalCacheMap
  | .updateOp w h => s.update w h
  | .evictOp w h => s.evict w h
  | .updateBlockSequenceOp w seq => s.updateBlockSequence w seq
  | .syncOp w hs => s.syncWorkerState w hs
  | .updateLoadOp w l => s.updateLoad w l

def applyCMOps (s : GlobalCacheMap) (ops : List CMOp) : GlobalCacheMap :=
  ops.foldl applyCMOp s

theorem consistent_initCM : consistentIndexes initCM := by
  intro w h
  simp [inForward, inReverse, initCM, aget]

theorem consistent_sync (s : GlobalCacheMap) (w : WorkerId)
    (A : List BlockHash) (hc : consistentIndexes s) :
    consistentIndexes (s.syncWorkerState w A) := by
  intro w' h'
  rw [inForward_sync, inReverse_sync]
  by_cases hw : w' = w
  · subst hw
    rw [if_pos rfl]
    constructor
    · rintro (⟨hF, hn⟩ | ⟨_, hA⟩)
      · exact absurd ⟨rfl, (hc w' h').mp hF⟩ hn
      · exact hA
    · intro hA
      exact Or.inr ⟨rfl, hA⟩
  · rw [if_neg hw]
    simp only [hw, false_and, and_false, not_false_iff, and_true, or_false]
    exact hc w' h'

theorem consistent_applyCMOp (s : GlobalCacheMap) (op : CMOp)
    (hc : consistentIndexes s) : consistentIndexes (applyCMOp s op) := by
  cases op with
  | updateOp w h =>
      intro w' h'
      rw [applyCMOp, inForward_update, inReverse_update, hc w' h']
  | evictOp w h =>
      intro w' h'
      rw [applyCMOp, inForward_evict, inReverse_evict, hc w' h']
  | updateBlockSequenceOp w seq => exact hc
  | syncOp w hs => exact consistent_sync s w hs hc
  | updateLoadOp w l => exact hc

theorem consistent_applyCMOps (ops : List CMOp) :
    ∀ (s : GlobalCacheMap), consistentIndexes s →
      consistentIndexes (applyCMOps s ops) := by
  induction ops with
  | nil => intro s hc; exact hc
  | cons op rest ih =>
      intro s hc
      exact ih (applyCMOp s op) (consistent_applyCMOp s op hc)

/-- C3: in every state of the `GlobalCacheMap` reachable from the empty
map by any interleaving of `update`, `evict`, `update_block_sequence`,
`sync_worker_state` and `update_load`, a worker `w` is in `_map[h]` if and
only if `h` is in `_worker_to_hashes[w]`. -/
theorem C3_reachable_indexes_consistent (ops : List CMOp) :
    consistentIndexes (applyCMOps initCM ops) :=
  consistent_applyCMOps ops initCM consistent_initCM

/-! ## Claim C1: the forward map after a sync -/

/-- C1: for every worker `w` and hash list `S`, in any state whose forward
and reverse indices are mutually consistent, after `sync_worker_state(w, S)`
the worker `w` is a member of `forward[h]` if and only if `h` is an element
of `S`. -/
theorem C1_sync_forward_iff (s : GlobalCacheMap) (w : WorkerId)
    (S : List BlockHash) (h : BlockHash) (hc : consistentIndexes s) :
    inForward (s.syncWorkerState w S) w h ↔ h ∈ S := by
  rw [inForward_sync]
  constructor
  · rintro (⟨hF, hn⟩ | ⟨_, hS⟩)
    · exact absurd ⟨rfl, (hc w h).mp hF⟩ hn
    · exact hS
  · intro hS
    exact Or.inr ⟨rfl, hS⟩

/-- Witness for C1 at a concrete input: the state `update("w","x")` is
consistent, and after `sync_worker_state("w", ["a"])` the worker is in
`forward["a"]` and not in `forward["x"]`. -/
theorem C1_sync_forward_iff_witness :
    inForward ((initCM.update "w" "x").syncWorkerState "w" ["a"]) "w" "a" ∧
      ¬ inForward ((initCM.update "w" "x").syncWorkerState "w" ["a"]) "w" "x" := by
  have hc : consistentIndexes (initCM.update "w" "x") :=
    consistent_applyCMOp initCM (.updateOp "w" "x") consistent_initCM
  constructor
  · exact (C1_sync_forward_iff (initCM.update "w" "x") "w" ["a"] "a" hc).mpr
      (by decide)
  · intro hx
    have := (C1_sync_forward_iff (initCM.update "w" "x") "w" ["a"] "x" hc).mp hx
    simp at this

/-! ## Claim C2: update_block_sequence and the old trie path -/

/-- C2 (failing input): `update_block_sequence` stores the new sequence
(cache_map.py line 49) before calling `_remove_worker_from_tree`
(line 52), so the removal walks the **new** sequence instead of the old
one.  Consequently, after `update_block_sequence("w", ["a"])` followed by
`update_block_sequence("w", ["b"])`, the worker `"w"` is still registered
at the trie node for the old path `["a"]`, although the stored sequence is
`["b"]` — contradicting the claim that no stale membership on the old
path survives. -/
theorem C2_stale_worker_on_old_path :
    "w" ∈ workersAt
        ((initCM.updateBlockSequence "w" ["a"]).updateBlockSequence "w" ["b"]).prefixTreeRoot
        ["a"] ∧
      aget ((initCM.updateBlockSequence "w" ["a"]).updateBlockSequence "w" ["b"]).workerBlockSequences
        "w" = some ["b"] := by
  constructor
  · decide
  · decide

/-! ## Claim C10: load-table frame effects of update and sync -/

@[simp] theorem addActiveHashes_leastLoadedRRIndex (w : WorkerId) :
    ∀ (L : List BlockHash) (s : GlobalCacheMap),
    (addActiveHashes s w L).leastLoadedRRIndex = s.leastLoadedRRIndex := by
  intro L
  induction L with
  | nil => intro s; rfl
  | cons h rest ih => intro s; rw [addActiveHashes, ih]

@[simp] theorem updateBlockSequence_leastLoadedRRIndex (s : GlobalCacheMap) (w seq) :
    (s.updateBlockSequence w seq).leastLoadedRRIndex = s.leastLoadedRRIndex := rfl

theorem syncWorkerState_workerLoad (s : GlobalCacheMap) (w : WorkerId)
    (A : List BlockHash) :
    (s.syncWorkerState w A).workerLoad =
      aset s.workerLoad w ((aget s.workerLoad w).getD 0) := by
  unfold GlobalCacheMap.syncWorkerState
  cases hr : aget s.workerToHashes w <;> dsimp only <;>
    by_cases hA : A = [] <;>
    simp [hA, addActiveHashes_workerLoad, updateBlockSequence_workerLoad]

theorem syncWorkerState_leastLoadedRRIndex (s : GlobalCacheMap) (w : WorkerId)
    (A : List BlockHash) :
    (s.syncWorkerState w A).leastLoadedRRIndex = s.leastLoadedRRIndex := by
  unfold GlobalCacheMap.syncWorkerState
  cases hr : aget s.workerToHashes w <;> dsimp only <;>
    by_cases hA : A = [] <;>
    simp [hA, addActiveHashes_leastLoadedRRIndex, updateBlockSequence_leastLoadedRRIndex]

/-- C10: `update(w, h)` and `sync_worker_state(w, S)` leave every existing
load-table entry unchanged and insert a `0` entry for `w` when it has
none; consequently a worker that has only ever synced becomes a candidate
of `get_least_loaded_worker` (returned, with load 0, when it is the only
known worker). -/
theorem C10_load_entries_preserved (s : GlobalCacheMap) (w : WorkerId)
    (h : BlockHash) (A : List BlockHash) :
    (∀ w' v, aget s.workerLoad w' = some v →
        aget (s.update w h).workerLoad w' = some v ∧
        aget (s.syncWorkerState w A).workerLoad w' = some v) ∧
    (aget s.workerLoad w = none →
        aget (s.update w h).workerLoad w = some 0 ∧
        aget (s.syncWorkerState w A).workerLoad w = some 0) ∧
    (s.workerLoad = [] →
        ((s.syncWorkerState w A).getLeastLoadedWorker none).1 = some w) := by
  refine ⟨?_, ?_, ?_⟩
  · intro w' v hv
    constructor
    · show aget (aset s.workerLoad w ((aget s.workerLoad w).getD 0)) w' = some v
      rw [aget_aset]
      by_cases hw : w' = w
      · subst hw
        rw [if_pos rfl, hv]
        rfl
      · rw [if_neg hw, hv]
    · rw [syncWorkerState_workerLoad, aget_aset]
      by_cases hw : w' = w
      · subst hw
        rw [if_pos rfl, hv]
        rfl
      · rw [if_neg hw, hv]
  · intro hnone
    constructor
    · show aget (aset s.workerLoad w ((aget s.workerLoad w).getD 0)) w = some 0
      rw [aget_aset, if_pos rfl, hnone]
      rfl
    · rw [syncWorkerState_workerLoad, aget_aset, if_pos rfl, hnone]
      rfl
  · intro hL
    have hload : (s.syncWorkerState w A).workerLoad = [(w, (0 : Int))] := by
      rw [syncWorkerState_workerLoad, hL]
      rfl
    unfold GlobalCacheMap.getLeastLoadedWorker
    rw [hload]
    simp [aget, minIntList, Nat.mod_one]

/-- Witness for C10 at concrete inputs: the existing entry `("a", 7)`
survives both operations, the fresh worker `"b"` gets load `0`, and a
worker known only through a sync is returned by the least-loaded query. -/
theorem C10_load_entries_preserved_witness :
    aget ((initCM.updateLoad "a" 7).update "b" "x").workerLoad "a" = some 7 ∧
    aget ((initCM.updateLoad "a" 7).syncWorkerState "b" ["y"]).workerLoad "b" = some 0 ∧
    ((initCM.syncWorkerState "b" ["y"]).getLeastLoadedWorker none).1 = some "b" := by
  have h1 := C10_load_entries_preserved (initCM.updateLoad "a" 7) "b" "x" ["y"]
  have h2 := C10_load_entries_preserved initCM "b" "x" ["y"]
  exact ⟨(h1.1 "a" 7 (by rfl)).1, (h1.2.1 (by rfl)).2, h2.2.2 (by rfl)⟩

/-! ## Claim C8: round-robin fairness of get_least_loaded_worker -/

theorem mem_of_aget {κ ν : Type} [DecidableEq κ] :
    ∀ (d : List (κ × ν)) (k : κ) (v : ν), aget d k = some v → (k, v) ∈ d := by
  intro d
  induction d with
  | nil => intro k v h; simp [aget] at h
  | cons p rest ih =>
      intro k v h
      obtain ⟨k0, v0⟩ := p
      by_cases hk : k = k0
      · subst hk
        have hv : aget ((k, v0) :: rest) k = some v0 := by simp [aget]
        rw [hv] at h
        cases h
        simp
      · simp only [aget, if_neg hk] at h
        exact List.mem_cons_of_mem _ (ih k v h)

theorem foldl_min_const (L : Int) : ∀ xs : List Int, (∀ x ∈ xs, x = L) →
    xs.foldl (fun b y => if y < b then y else b) L = L := by
  intro xs
  induction xs with
  | nil => intro _; rfl
  | cons x t ih =>
      intro hall
      have hx : x = L := hall x (by simp)
      subst hx
      simp only [List.foldl_cons]
      rw [if_neg (lt_irrefl _)]
      exact ih (fun y hy => hall y (by simp [hy]))

theorem minIntList_const (L : Int) : ∀ l : List Int, l ≠ [] → (∀ x ∈ l, x = L) →
    minIntList l = L := by
  intro l
  cases l with
  | nil => intro h; exact absurd rfl h
  | cons x t =>
      intro _ hall
      have hx : x = L := hall x (by simp)
      rw [minIntList, hx]
      exact foldl_min_const L t (fun y hy => hall y (by simp [hy]))

/-- Round-robin counter currently associated with the tie key formed by
all known workers. -/
def rrIndexOf (s : GlobalCacheMap) : Nat :=
  (aget s.leastLoadedRRIndex (sortStrings (s.workerLoad.map Prod.fst))).getD 0

/-- State after advancing the round-robin counter for a tie key. -/
def bumpRR (s : GlobalCacheMap) (key : List WorkerId) (j : Nat) : GlobalCacheMap :=
  { s with leastLoadedRRIndex := aset s.leastLoadedRRIndex key (j + 1) }

theorem rrIndexOf_bumpRR (s : GlobalCacheMap) (j : Nat) :
    rrIndexOf (bumpRR s (sortStrings (s.workerLoad.map Prod.fst)) j) = j + 1 := by
  unfold rrIndexOf bumpRR
  dsimp only
  rw [aget_aset, if_pos rfl]
  rfl

/-- One call of `get_least_loaded_worker(None)` on a state whose load
table is nonempty with all loads equal: every worker ties, the tie key is
the full (sorted) key set, and the call returns the key at the current
round-robin index, advancing the counter. -/
theorem getLeastLoadedWorker_uniform (s : GlobalCacheMap) (L : Int)
    (hne : s.workerLoad ≠ [])
    (huni : ∀ p ∈ s.workerLoad, p.2 = L) :
    s.getLeastLoadedWorker none =
      (some ((s.workerLoad.map Prod.fst).getD
        (rrIndexOf s % (s.workerLoad.map Prod.fst).length) ""),
       bumpRR s (sortStrings (s.workerLoad.map Prod.fst)) (rrIndexOf s)) := by
  have hkeysne : s.workerLoad.map Prod.fst ≠ [] := by
    intro hx
    exact hne (List.map_eq_nil_iff.mp hx)
  have hload : ∀ k ∈ s.workerLoad.map Prod.fst, (aget s.workerLoad k).getD 0 = L := by
    intro k hk
    obtain ⟨v, hv, hm⟩ := aget_mem_of_mem_keys _ _ hk
    rw [hv]
    exact huni _ hm
  have hvalid : (s.workerLoad.map Prod.fst).filter
      (fun w => (aget s.workerLoad w).isSome) = s.workerLoad.map Prod.fst := by
    rw [List.filter_eq_self]
    intro k hk
    obtain ⟨v, hv, _⟩ := aget_mem_of_mem_keys _ _ hk
    rw [hv]
    rfl
  have hminL : minIntList ((s.workerLoad.map Prod.fst).map
      (fun w => (aget s.workerLoad w).getD 0)) = L := by
    apply minIntList_const
    · simpa using hne
    · intro x hx
      obtain ⟨k, hk, hkx⟩ := List.mem_map.mp hx
      rw [← hkx]
      exact hload k hk
  have hmlw : (s.workerLoad.map Prod.fst).filter
      (fun w => (aget s.workerLoad w).getD 0 = L) = s.workerLoad.map Prod.fst := by
    rw [List.filter_eq_self]
    intro k hk
    simp [hload k hk]
  unfold GlobalCacheMap.getLeastLoadedWorker
  rw [if_neg hne]
  dsimp only
  rw [hvalid, if_neg hkeysne, hminL, hmlw]
  rfl

/-- Successive calls of `get_least_loaded_worker(None)`, threading the
state (the round-robin counter advances between calls). -/
def runLeastLoadedCalls : GlobalCacheMap → Nat → List (Option WorkerId)
  | _, 0 => []
  | s, n + 1 =>
      (s.getLeastLoadedWorker none).1 ::
        runLeastLoadedCalls (s.getLeastLoadedWorker none).2 n

theorem runLeastLoadedCalls_uniform (L : Int) :
    ∀ (n : Nat) (s : GlobalCacheMap), s.workerLoad ≠ [] →
      (∀ p ∈ s.workerLoad, p.2 = L) →
      runLeastLoadedCalls s n = (List.range n).map (fun i =>
        some ((s.workerLoad.map Prod.fst).getD
          ((rrIndexOf s + i) % (s.workerLoad.map Prod.fst).length) "")) := by
  intro n
  induction n with
  | zero => intro s _ _; rfl
  | succ n ih =>
      intro s hne huni
      rw [runLeastLoadedCalls, getLeastLoadedWorker_uniform s L hne huni]
      have hwl : (bumpRR s (sortStrings (s.workerLoad.map Prod.fst)) (rrIndexOf s)).workerLoad
          = s.workerLoad := rfl
      rw [ih _ (by rw [hwl]; exact hne) (by rw [hwl]; exact huni)]
      rw [rrIndexOf_bumpRR, hwl]
      rw [List.range_succ_eq_map, List.map_cons, List.map_map]
      congr 1
      apply List.map_congr_left
      intro i _
      simp only [Function.comp_apply, Nat.succ_eq_add_one]
      have hadd : rrIndexOf s + 1 + i = rrIndexOf s + (i + 1) := by omega
      rw [hadd]

theorem countP_congr_mem {α : Type} (p q : α → Bool) :
    ∀ l : List α, (∀ a ∈ l, p a = q a) → l.countP p = l.countP q := by
  intro l
  induction l with
  | nil => intro _; rfl
  | cons a t ih =>
      intro hpq
      rw [List.countP_cons, List.countP_cons, hpq a (by simp),
        ih (fun b hb => hpq b (by simp [hb]))]

theorem count_map_eq_countP {α β : Type} [BEq β] [LawfulBEq β] [DecidableEq β]
    (g : α → β) (b : β) :
    ∀ l : List α, (l.map g).count b = l.countP (fun a => g a = b) := by
  intro l
  induction l with
  | nil => rfl
  | cons a t ih =>
      simp only [List.map_cons, List.count_cons, List.countP_cons, ih,
        beq_iff_eq, decide_eq_true_eq]

theorem countP_eq_count {α : Type} [DecidableEq α] (a : α) :
    ∀ l : List α, l.countP (fun x => x = a) = l.count a := by
  intro l
  induction l with
  | nil => rfl
  | cons x t ih =>
      simp only [List.countP_cons, List.count_cons, ih, beq_iff_eq,
        decide_eq_true_eq]

theorem count_range_one {i N : Nat} (h : i < N) : (List.range N).count i = 1 := by
  have hnd := List.nodup_range N
  have hmem : i ∈ List.range N := List.mem_range.mpr h
  have h1 : (List.range N).count i ≤ 1 := List.nodup_iff_count_le_one.mp hnd i
  have h2 : 0 < (List.range N).count i := List.count_pos_iff.mpr hmem
  omega

theorem countP_mod_single (N j t : Nat) (hN : 0 < N) (ht : t < N) :
    (List.range N).countP (fun i => (j + i) % N = t) = 1 := by
  have hrlt : j % N < N := Nat.mod_lt _ hN
  set r := j % N with hrdef
  set i0 := if r ≤ t then t - r else t + N - r with hi0def
  have hi0lt : i0 < N := by
    rw [hi0def]
    by_cases hrt : r ≤ t
    · rw [if_pos hrt]; omega
    · rw [if_neg hrt]; omega
  have key : ∀ i, i < N → (((j + i) % N = t) ↔ i = i0) := by
    intro i hi
    have h1 : (j + i) % N = (r + i) % N := by
      conv_lhs => rw [Nat.add_mod]
      rw [Nat.mod_eq_of_lt hi]
    have h3 : (r + i) % N = if r + i < N then r + i else r + i - N := by
      by_cases hlt : r + i < N
      · rw [if_pos hlt, Nat.mod_eq_of_lt hlt]
      · rw [if_neg hlt, Nat.mod_eq_sub_mod (by omega), Nat.mod_eq_of_lt (by omega)]
    rw [h1, h3]
    by_cases hlt : r + i < N
    · rw [if_pos hlt, hi0def]
      by_cases hrt : r ≤ t
      · rw [if_pos hrt]; omega
      · rw [if_neg hrt]; omega
    · rw [if_neg hlt, hi0def]
      by_cases hrt : r ≤ t
      · rw [if_pos hrt]; omega
      · rw [if_neg hrt]; omega
  have hcong : ∀ i ∈ List.range N,
      (decide ((j + i) % N = t)) = (decide (i = i0)) := by
    intro i hi
    exact decide_eq_decide.mpr (key i (List.mem_range.mp hi))
  calc (List.range N).countP (fun i => (j + i) % N = t)
      = (List.range N).countP (fun i => i = i0) := countP_congr_mem _ _ _ hcong
    _ = (List.range N).count i0 := countP_eq_count i0 _
    _ = 1 := count_range_one hi0lt

theorem countP_mod_window (t : Nat) :
    ∀ (c N j : Nat), 0 < N → t < N →
      (List.range (c * N)).countP (fun i => (j + i) % N = t) = c := by
  intro c
  induction c with
  | zero => intro N j _ _; simp
  | succ c ih =>
      intro N j hN ht
      rw [Nat.succ_mul, List.range_add, List.countP_append, ih N j hN ht,
        List.countP_map]
      have hcong : ∀ i ∈ List.range N,
          (decide ((j + (c * N + i)) % N = t)) = (decide ((j + i) % N = t)) := by
        intro i _
        have hmod : (j + (c * N + i)) % N = (j + i) % N := by
          rw [show j + (c * N + i) = (j + i) + c * N by omega,
            Nat.add_mul_mod_self_right]
        rw [hmod]
      have : (List.range N).countP ((fun i => decide ((j + i) % N = t)) ∘
          (fun i => c * N + i)) = (List.range N).countP (fun i => (j + i) % N = t) := by
        apply countP_congr_mem
        intro i hi
        simp only [Function.comp_apply]
        exact hcong i hi
      rw [this, countP_mod_single N j t hN ht]

/-- C8: for a load table holding exactly N workers with equal loads and no
interleaving operation, 10·N successive calls of
`get_least_loaded_worker(None)` return every worker exactly 10 times (the
per-tie-set round-robin counter cycles through the tied workers). -/
theorem C8_equal_load_round_robin (s : GlobalCacheMap) (L : Int)
    (hne : s.workerLoad ≠ [])
    (huni : ∀ p ∈ s.workerLoad, p.2 = L)
    (hnd : (s.workerLoad.map Prod.fst).Nodup)
    (w : WorkerId) (hw : w ∈ s.workerLoad.map Prod.fst) :
    (runLeastLoadedCalls s (10 * (s.workerLoad.map Prod.fst).length)).count
      (some w) = 10 := by
  have hN : 0 < (s.workerLoad.map Prod.fst).length := by
    rw [List.length_pos]
    intro hx
    exact hne (List.map_eq_nil_iff.mp hx)
  obtain ⟨t, htlt, hti⟩ := List.mem_iff_getElem.mp hw
  rw [runLeastLoadedCalls_uniform L _ s hne huni, count_map_eq_countP]
  have hcong : ∀ i ∈ List.range (10 * (s.workerLoad.map Prod.fst).length),
      (decide (some ((s.workerLoad.map Prod.fst).getD
          ((rrIndexOf s + i) % (s.workerLoad.map Prod.fst).length) "") = some w)) =
      (decide ((rrIndexOf s + i) % (s.workerLoad.map Prod.fst).length = t)) := by
    intro i _
    apply decide_eq_decide.mpr
    have hmlt : (rrIndexOf s + i) % (s.workerLoad.map Prod.fst).length <
        (s.workerLoad.map Prod.fst).length := Nat.mod_lt _ hN
    rw [List.getD_eq_getElem _ _ hmlt]
    constructor
    · intro hsome
      have heq := Option.some_inj.mp hsome
      rw [← hti] at heq
      exact (List.Nodup.getElem_inj_iff hnd).mp heq
    · intro hit
      subst hit
      exact congrArg some hti
  rw [countP_congr_mem _ _ _ hcong]
  exact countP_mod_window t 10 _ (rrIndexOf s) hN htlt

/-- Witness for C8 at a concrete input: one worker with load 0; ten calls
return it ten times. -/
theorem C8_equal_load_round_robin_witness :
    (runLeastLoadedCalls (initCM.updateLoad "a" 0) 10).count (some "a") = 10 := by
  have h := C8_equal_load_round_robin (initCM.updateLoad "a" 0) 0
    (by decide) (by decide) (by decide) "a" (by decide)
  simpa using h

/-! ## Characterization of the find_longest_prefix_match traversal -/

/-- Nodes entered by the traversal loop of `find_longest_prefix_match`,
in order (depth 1, 2, ...); the walk stops at the first missing edge. -/
def visitedNodes : PrefixTreeNode → List BlockHash → List PrefixTreeNode
  | _, [] => []
  | n, h :: rest =>
      match childNode n h with
      | some c => c :: visitedNodes c rest
      | none => []

/-- Index and node of the last visited node whose worker set is nonempty
(the node whose workers the source's `best_worker` is drawn from). -/
def lastNonempty : List PrefixTreeNode → Option (Nat × PrefixTreeNode)
  | [] => none
  | n :: rest =>
      match lastNonempty rest with
      | some (i, m) => some (i + 1, m)
      | none => if n.workers = [] then none else some (0, n)

theorem findAux_eq_lastNonempty (tbl : List (WorkerId × Int)) :
    ∀ (q : List BlockHash) (n : PrefixTreeNode) (d : Nat) (bw : Option WorkerId)
      (bl : Nat),
    findAux tbl n q d bw bl =
      (match lastNonempty (visitedNodes n q) with
       | none => (bw, bl)
       | some (i, m) => (getLeastLoadedFromList tbl m.workers, d + i + 1)) := by
  intro q
  induction q with
  | nil => intro n d bw bl; rfl
  | cons h rest ih =>
      intro n d bw bl
      simp only [findAux, visitedNodes]
      cases hc : childNode n h with
      | none => rfl
      | some c =>
          dsimp only
          by_cases hw : c.workers = []
          · rw [if_pos hw, ih]
            cases hl : lastNonempty (visitedNodes c rest) with
            | none => simp [lastNonempty, hl, hw]
            | some im =>
                obtain ⟨i, m⟩ := im
                simp only [lastNonempty, hl]
                simp only [Prod.mk.injEq, true_and]
                omega
          · rw [if_neg hw, ih]
            cases hl : lastNonempty (visitedNodes c rest) with
            | none => simp [lastNonempty, hl, hw]
            | some im =>
                obtain ⟨i, m⟩ := im
                simp only [lastNonempty, hl]
                simp only [Prod.mk.injEq, true_and]
                omega

theorem lastNonempty_none_iff :
    ∀ vs : List PrefixTreeNode,
      lastNonempty vs = none ↔ ∀ m ∈ vs, m.workers = [] := by
  intro vs
  induction vs with
  | nil => simp [lastNonempty]
  | cons n rest ih =>
      rw [lastNonempty]
      cases hl : lastNonempty rest with
      | some im =>
          simp only []
          constructor
          · intro hx; cases hx
          · intro hall
            have : ∀ m ∈ rest, m.workers = [] := fun m hm => hall m (by simp [hm])
            rw [← ih] at this
            rw [hl] at this
            cases this
      | none =>
          by_cases hw : n.workers = []
          · simp only [if_pos hw]
            constructor
            · intro _ m hm
              rcases List.mem_cons.mp hm with rfl | hm'
              · exact hw
              · exact (ih.mp hl) m hm'
            · intro _; trivial
          · simp only [if_neg hw]
            constructor
            · intro hx; cases hx
            · intro hall
              exact absurd (hall n (by simp)) hw

theorem lastNonempty_spec :
    ∀ (vs : List PrefixTreeNode) (i : Nat) (m : PrefixTreeNode),
      lastNonempty vs = some (i, m) →
      i < vs.length ∧ vs.getD i PrefixTreeNode.empty = m ∧ m.workers ≠ [] ∧
      ∀ j, i < j → (vs.getD j PrefixTreeNode.empty).workers = [] := by
  intro vs
  induction vs with
  | nil => intro i m h; cases h
  | cons n rest ih =>
      intro i m h
      rw [lastNonempty] at h
      cases hl : lastNonempty rest with
      | some im =>
          obtain ⟨i', m'⟩ := im
          rw [hl] at h
          simp only [Option.some.injEq, Prod.mk.injEq] at h
          obtain ⟨hi, hm⟩ := h
          subst hm
          subst hi
          obtain ⟨hlen, hget, hne, hdeep⟩ := ih i' m' hl
          refine ⟨by simp; omega, ?_, hne, ?_⟩
          · simpa using hget
          · intro j hj
            obtain ⟨j', rfl⟩ : ∃ j', j = j' + 1 := ⟨j - 1, by omega⟩
            simp only [List.getD_cons_succ]
            exact hdeep j' (by omega)
      | none =>
          rw [hl] at h
          by_cases hw : n.workers = []
          · rw [if_pos hw] at h
            cases h
          · rw [if_neg hw] at h
            simp only [Option.some.injEq, Prod.mk.injEq] at h
            obtain ⟨hi, hm⟩ := h
            subst hm
            subst hi
            refine ⟨by simp, rfl, hw, ?_⟩
            intro j hj
            obtain ⟨j', rfl⟩ : ∃ j', j = j' + 1 := ⟨j - 1, by omega⟩
            simp only [List.getD_cons_succ]
            by_cases hjl : j' < rest.length
            · have hmem : rest.getD j' PrefixTreeNode.empty ∈ rest := by
                rw [List.getD_eq_getElem _ _ hjl]
                exact List.getElem_mem hjl
              exact (lastNonempty_none_iff rest).mp hl _ hmem
            · rw [List.getD_eq_default _ _ (by omega)]
              rfl

theorem nodeAtPath_visited :
    ∀ (q : List BlockHash) (n : PrefixTreeNode) (i : Nat),
      i < (visitedNodes n q).length →
      nodeAtPath n (q.take (i + 1)) =
        some ((visitedNodes n q).getD i PrefixTreeNode.empty) := by
  intro q
  induction q with
  | nil => intro n i h; simp [visitedNodes] at h
  | cons h rest ih =>
      intro n i hi
      have hv : visitedNodes n (h :: rest) =
          (match childNode n h with
           | some c => c :: visitedNodes c rest
           | none => []) := rfl
      cases hc : childNode n h with
      | none =>
          rw [hv, hc] at hi
          simp at hi
      | some c =>
          rw [hv, hc] at hi ⊢
          dsimp only at hi ⊢
          have hstep : nodeAtPath n (List.take (i + 1) (h :: rest)) =
              nodeAtPath c (List.take i rest) := by
            rw [List.take_succ_cons, nodeAtPath, hc]
          rw [hstep]
          cases i with
          | zero => simp [nodeAtPath]
          | succ i' =>
              simp only [List.getD_cons_succ]
              exact ih c i' (by simpa using hi)

/-! ## Specification of _get_least_loaded_from_list -/

/-- What `_get_least_loaded_from_list` guarantees about its result `u`:
it is one of the candidates; if some candidate has a load entry then `u`
has one of minimal value among candidates with entries; if none has an
entry, `u` is the first candidate (the source's fallback `candidates[0]`). -/
def isLeastLoadedAmong (tbl : List (WorkerId × Int)) (cands : List WorkerId)
    (u : WorkerId) : Prop :=
  u ∈ cands ∧
  ((∃ v ∈ cands, (aget tbl v).isSome = true) →
    ∃ lu, aget tbl u = some lu ∧
      ∀ v ∈ cands, ∀ lv, aget tbl v = some lv → lu ≤ lv) ∧
  ((∀ v ∈ cands, aget tbl v = none) → some u = cands.head?)

theorem foldl_minBy_mem (tbl : List (WorkerId × Int)) :
    ∀ (vs : List WorkerId) (v0 : WorkerId),
      (vs.foldl (fun b y =>
        if (aget tbl y).getD 0 < (aget tbl b).getD 0 then y else b) v0) ∈ v0 :: vs := by
  intro vs
  induction vs with
  | nil => intro v0; simp
  | cons y t ih =>
      intro v0
      rw [List.foldl_cons]
      by_cases hy : (aget tbl y).getD 0 < (aget tbl v0).getD 0
      · rw [if_pos hy]
        rcases List.mem_cons.mp (ih y) with hm | hm
        · simp [hm]
        · simp [hm]
      · rw [if_neg hy]
        rcases List.mem_cons.mp (ih v0) with hm | hm
        · simp [hm]
        · simp [hm]

theorem foldl_minBy_le (tbl : List (WorkerId × Int)) :
    ∀ (vs : List WorkerId) (v0 : WorkerId),
      (aget tbl (vs.foldl (fun b y =>
          if (aget tbl y).getD 0 < (aget tbl b).getD 0 then y else b) v0)).getD 0 ≤
        (aget tbl v0).getD 0 ∧
      ∀ y ∈ vs, (aget tbl (vs.foldl (fun b y =>
          if (aget tbl y).getD 0 < (aget tbl b).getD 0 then y else b) v0)).getD 0 ≤
        (aget tbl y).getD 0 := by
  intro vs
  induction vs with
  | nil => intro v0; exact ⟨le_refl _, by simp⟩
  | cons y t ih =>
      intro v0
      rw [List.foldl_cons]
      by_cases hy : (aget tbl y).getD 0 < (aget tbl v0).getD 0
      · rw [if_pos hy]
        obtain ⟨h1, h2⟩ := ih y
        refine ⟨le_trans h1 (le_of_lt hy), ?_⟩
        intro z hz
        rcases List.mem_cons.mp hz with rfl | hz'
        · exact h1
        · exact h2 z hz'
      · rw [if_neg hy]
        obtain ⟨h1, h2⟩ := ih v0
        refine ⟨h1, ?_⟩
        intro z hz
        rcases List.mem_cons.mp hz with rfl | hz'
        · exact le_trans h1 (not_lt.mp hy)
        · exact h2 z hz'

theorem getLeastLoadedFromList_spec (tbl : List (WorkerId × Int))
    (cands : List WorkerId) (hne : cands ≠ []) :
    ∃ u, getLeastLoadedFromList tbl cands = some u ∧
      isLeastLoadedAmong tbl cands u := by
  obtain ⟨c0, cs, rfl⟩ := List.exists_cons_of_ne_nil hne
  rw [getLeastLoadedFromList]
  cases hf : (c0 :: cs).filter (fun w => (aget tbl w).isSome) with
  | nil =>
      refine ⟨c0, rfl, by simp, ?_, ?_⟩
      · rintro ⟨v, hv, hvs⟩
        exfalso
        have hmem : v ∈ (c0 :: cs).filter (fun w => (aget tbl w).isSome) :=
          List.mem_filter.mpr ⟨hv, hvs⟩
        rw [hf] at hmem
        simp at hmem
      · intro _; rfl
  | cons v0 vs =>
      have hrmem0 : (vs.foldl (fun b y =>
          if (aget tbl y).getD 0 < (aget tbl b).getD 0 then y else b) v0) ∈ v0 :: vs :=
        foldl_minBy_mem tbl vs v0
      have hrfil : (vs.foldl (fun b y =>
          if (aget tbl y).getD 0 < (aget tbl b).getD 0 then y else b) v0) ∈
          (c0 :: cs).filter (fun w => (aget tbl w).isSome) := by
        rw [hf]; exact hrmem0
      obtain ⟨hrc, hrs⟩ := List.mem_filter.mp hrfil
      obtain ⟨lu, hlu⟩ := Option.isSome_iff_exists.mp hrs
      refine ⟨_, rfl, hrc, ?_, ?_⟩
      · intro _
        refine ⟨lu, hlu, ?_⟩
        intro v hv lv hlv
        have hvfil : v ∈ (c0 :: cs).filter (fun w => (aget tbl w).isSome) :=
          List.mem_filter.mpr ⟨hv, by rw [hlv]; rfl⟩
        rw [hf] at hvfil
        obtain ⟨h1, h2⟩ := foldl_minBy_le tbl vs v0
        have hle : (aget tbl (vs.foldl (fun b y =>
            if (aget tbl y).getD 0 < (aget tbl b).getD 0 then y else b) v0)).getD 0 ≤
            (aget tbl v).getD 0 := by
          rcases List.mem_cons.mp hvfil with rfl | hvv
          · exact h1
          · exact h2 v hvv
        rw [hlu, hlv] at hle
        simpa using hle
      · intro hall
        exfalso
        have hv0fil : v0 ∈ (c0 :: cs).filter (fun w => (aget tbl w).isSome) := by
          rw [hf]; simp
        obtain ⟨hv0c, hv0s⟩ := List.mem_filter.mp hv0fil
        rw [hall v0 hv0c] at hv0s
        simp at hv0s

/-- Full characterization of a successful `find_longest_prefix_match`:
the returned length is at least 1, the node at depth `k` on the query path
has a nonempty worker set containing the returned worker, the returned
worker is least-loaded among that node's workers (per
`_get_least_loaded_from_list`), and every deeper visited node on the
matched path has an empty worker set. -/
theorem findLongestPrefixMatch_spec (s : GlobalCacheMap) (q : List BlockHash)
    (u : WorkerId) (k : Nat)
    (hfind : s.findLongestPrefixMatch q = (some u, k)) :
    1 ≤ k ∧ ∃ m, nodeAtPath s.prefixTreeRoot (q.take k) = some m ∧
      m.workers ≠ [] ∧ isLeastLoadedAmong s.workerLoad m.workers u ∧
      ∀ j, k ≤ j →
        ((visitedNodes s.prefixTreeRoot q).getD j PrefixTreeNode.empty).workers = [] := by
  rw [GlobalCacheMap.findLongestPrefixMatch, findAux_eq_lastNonempty] at hfind
  cases hl : lastNonempty (visitedNodes s.prefixTreeRoot q) with
  | none =>
      rw [hl] at hfind
      simp at hfind
  | some im =>
      obtain ⟨i, m⟩ := im
      rw [hl] at hfind
      simp only [Prod.mk.injEq] at hfind
      obtain ⟨hlll, hk⟩ := hfind
      obtain ⟨hilen, hget, hmne, hdeep⟩ := lastNonempty_spec _ i m hl
      obtain ⟨u', hu', hspec⟩ := getLeastLoadedFromList_spec s.workerLoad m.workers hmne
      have huu : u' = u := by
        rw [hu'] at hlll
        exact Option.some_inj.mp hlll
      subst huu
      refine ⟨by omega, m, ?_, hmne, hspec, ?_⟩
      · have hv := nodeAtPath_visited q s.prefixTreeRoot i hilen
        rw [hget] at hv
        rw [show k = i + 1 by omega]
        exact hv
      · intro j hj
        exact hdeep j (by omega)

/-! ## Claim C6: least-loaded selection at the deepest node; no rotation -/

/-- Successive calls of `find_longest_prefix_match` on the same map.  The
source method (cache_map.py lines 139-168) performs no writes — neither it
nor `_get_least_loaded_from_list` assigns any state — so each call sees
the same, unchanged state. -/
def repeatedFindCalls (s : GlobalCacheMap) (q : List BlockHash) :
    Nat → List (Option WorkerId × Nat)
  | 0 => []
  | n + 1 => s.findLongestPrefixMatch q :: repeatedFindCalls s q n

/-- State used in the C6 counterexample: workers `"a"` and `"b"` both
synced with the single block `"h"`, both with load 0. -/
def c6State : GlobalCacheMap :=
  (initCM.syncWorkerState "a" ["h"]).syncWorkerState "b" ["h"]

/-- C6 (counterexample): in a state where `"a"` and `"b"` are both
registered at the trie node for `["h"]` with equal recorded loads, two
successive calls of `find_longest_prefix_match(["h"])` both return
`("a", 1)`; `"b"` is never returned.  The claim requires the tie between
`"a"` and `"b"` to be broken round-robin across successive calls (each of
the two tied workers returned once in two calls), but
`_get_least_loaded_from_list` uses a bare `min` with no per-tie-set
counter and the method mutates nothing, so every call returns the same
worker. -/
theorem C6_no_round_robin_counterexample :
    repeatedFindCalls c6State ["h"] 2 = [(some "a", 1), (some "a", 1)] ∧
    workersAt c6State.prefixTreeRoot ["h"] = ["a", "b"] ∧
    aget c6State.workerLoad "a" = some 0 ∧
    aget c6State.workerLoad "b" = some 0 ∧
    ("b" : WorkerId) ≠ "a" := by
  refine ⟨?_, ?_, ?_, ?_, ?_⟩ <;> decide

/-- C6 (amended): `find_longest_prefix_match` returns, among the workers
present at the node at the returned depth (the deepest visited node with a
nonempty worker set), one whose recorded load is minimal among those with
load entries (the first candidate when none has an entry); the selection
is deterministic — the method mutates no state, so successive calls with
the same tie set return the same worker, with no round-robin rotation. -/
theorem C6_find_least_loaded_no_rotation (s : GlobalCacheMap)
    (q : List BlockHash) (u : WorkerId) (k : Nat)
    (hfind : s.findLongestPrefixMatch q = (some u, k)) :
    (1 ≤ k ∧ ∃ m, nodeAtPath s.prefixTreeRoot (q.take k) = some m ∧
      m.workers ≠ [] ∧ isLeastLoadedAmong s.workerLoad m.workers u ∧
      ∀ j, k ≤ j →
        ((visitedNodes s.prefixTreeRoot q).getD j PrefixTreeNode.empty).workers = []) ∧
    repeatedFindCalls s q 2 = [(some u, k), (some u, k)] := by
  refine ⟨findLongestPrefixMatch_spec s q u k hfind, ?_⟩
  rw [repeatedFindCalls, repeatedFindCalls, repeatedFindCalls, hfind]

/-- Witness for C6 (amended) at the concrete state `c6State`. -/
theorem C6_find_least_loaded_no_rotation_witness :
    (1 ≤ 1 ∧ ∃ m, nodeAtPath c6State.prefixTreeRoot (List.take 1 ["h"]) = some m ∧
      m.workers ≠ [] ∧ isLeastLoadedAmong c6State.workerLoad m.workers "a" ∧
      ∀ j, 1 ≤ j →
        ((visitedNodes c6State.prefixTreeRoot ["h"]).getD j PrefixTreeNode.empty).workers = []) ∧
    repeatedFindCalls c6State ["h"] 2 = [(some "a", 1), (some "a", 1)] :=
  C6_find_least_loaded_no_rotation c6State ["h"] "a" 1 (by decide)

/-! ## Claim C4: update_block_sequence then find_longest_prefix_match -/

theorem addPath_workers (w : WorkerId) (n : PrefixTreeNode) :
    ∀ p : List BlockHash, (addPath w n p).workers = n.workers := by
  intro p
  cases p with
  | nil => rfl
  | cons h rest => rfl

theorem childNode_setChild_self (n : PrefixTreeNode) (h : BlockHash)
    (c : PrefixTreeNode) : childNode (setChild n h c) h = some c := by
  unfold childNode setChild
  show aget (aset n.children h c) h = some c
  rw [aget_aset, if_pos rfl]

theorem addPath_walk (w : WorkerId) :
    ∀ (seq : List BlockHash) (n : PrefixTreeNode), seq ≠ [] →
    ∃ m, nodeAtPath (addPath w n seq) seq = some m ∧ w ∈ m.workers ∧
      lastNonempty (visitedNodes (addPath w n seq) seq) =
        some (seq.length - 1, m) := by
  intro seq
  induction seq with
  | nil => intro n hx; exact absurd rfl hx
  | cons h rest ih =>
      intro n _
      rw [addPath]
      by_cases hrest : rest = []
      · subst hrest
        set c' := PrefixTreeNode.mk ((childNode n h).getD PrefixTreeNode.empty).children
            (sadd w ((childNode n h).getD PrefixTreeNode.empty).workers) with hc'
        have hwc' : w ∈ c'.workers := by
          rw [hc']
          show w ∈ sadd w ((childNode n h).getD PrefixTreeNode.empty).workers
          exact (mem_sadd w w _).mpr (Or.inl rfl)
        have hwne : c'.workers ≠ [] := by
          intro hx
          rw [hx] at hwc'
          simp at hwc'
        refine ⟨c', ?_, hwc', ?_⟩
        · rw [nodeAtPath, childNode_setChild_self]
          rfl
        · have hv : visitedNodes (setChild n h (addPath w c' [])) [h] =
              [addPath w c' []] := by
            rw [visitedNodes, childNode_setChild_self]
            rfl
          rw [hv]
          show lastNonempty [c'] = some (0, c')
          rw [lastNonempty]
          rw [show lastNonempty ([] : List PrefixTreeNode) = none from rfl]
          show (if c'.workers = [] then none else some (0, c')) = some (0, c')
          rw [if_neg hwne]
      · set c' := PrefixTreeNode.mk ((childNode n h).getD PrefixTreeNode.empty).children
            (sadd w ((childNode n h).getD PrefixTreeNode.empty).workers) with hc'
        obtain ⟨m, hm, hwm, hlast⟩ := ih c' hrest
        refine ⟨m, ?_, hwm, ?_⟩
        · rw [nodeAtPath, childNode_setChild_self]
          exact hm
        · have hv : visitedNodes (setChild n h (addPath w c' rest)) (h :: rest) =
              addPath w c' rest :: visitedNodes (addPath w c' rest) rest := by
            rw [visitedNodes, childNode_setChild_self]
          rw [hv, lastNonempty, hlast]
          have hrl : 1 ≤ rest.length := List.length_pos.mpr hrest
          simp only [List.length_cons]
          have heq : rest.length - 1 + 1 = rest.length + 1 - 1 := by omega
          rw [heq]

/-- C4: for every worker `w`, nonempty sequence `seq`, and state `s`,
`update_block_sequence(w, seq)` followed by
`find_longest_prefix_match(seq)` returns match length `|seq|` and a worker
registered at the depth-`|seq|` trie node — a node that also contains `w`
itself (so the result is `w` or a tied candidate at that node). -/
theorem C4_update_then_find (s : GlobalCacheMap) (w : WorkerId)
    (seq : List BlockHash) (hne : seq ≠ []) :
    ((s.updateBlockSequence w seq).findLongestPrefixMatch seq).2 = seq.length ∧
    ∃ u m, nodeAtPath (s.updateBlockSequence w seq).prefixTreeRoot seq = some m ∧
      ((s.updateBlockSequence w seq).findLongestPrefixMatch seq).1 = some u ∧
      u ∈ m.workers ∧ w ∈ m.workers := by
  obtain ⟨m, hm, hwm, hlast⟩ := addPath_walk w seq
    (removeWorkerFromTree
      { s with workerBlockSequences := aset s.workerBlockSequences w seq } w) hne
  have hroot : (s.updateBlockSequence w seq).prefixTreeRoot =
      addPath w (removeWorkerFromTree
        { s with workerBlockSequences := aset s.workerBlockSequences w seq } w) seq := rfl
  have hmne : m.workers ≠ [] := by
    intro hx
    rw [hx] at hwm
    simp at hwm
  obtain ⟨u, hu, huspec⟩ :=
    getLeastLoadedFromList_spec (s.updateBlockSequence w seq).workerLoad m.workers hmne
  have hfind : (s.updateBlockSequence w seq).findLongestPrefixMatch seq =
      (some u, seq.length) := by
    rw [GlobalCacheMap.findLongestPrefixMatch, findAux_eq_lastNonempty]
    rw [hroot, hlast]
    dsimp only
    have hlen : 1 ≤ seq.length := List.length_pos.mpr hne
    have heq : 0 + (seq.length - 1) + 1 = seq.length := by omega
    rw [heq, hu]
  refine ⟨by rw [hfind], u, m, ?_, by rw [hfind], huspec.1, hwm⟩
  rw [hroot]
  exact hm

/-- Witness for C4 at a concrete input: empty map, worker `"w"`, sequence
`["a", "b"]`. -/
theorem C4_update_then_find_witness :
    ((initCM.updateBlockSequence "w" ["a", "b"]).findLongestPrefixMatch
        ["a", "b"]).2 = (["a", "b"] : List BlockHash).length ∧
    ∃ u m, nodeAtPath (initCM.updateBlockSequence "w" ["a", "b"]).prefixTreeRoot
        ["a", "b"] = some m ∧
      ((initCM.updateBlockSequence "w" ["a", "b"]).findLongestPrefixMatch
        ["a", "b"]).1 = some u ∧
      u ∈ m.workers ∧ "w" ∈ m.workers :=
  C4_update_then_find initCM "w" ["a", "b"] (by decide)

/-! ## Router HTTP layer (src/router/main.py) -/

/-- Python truthiness of an `Optional[str]`: `None` and the empty string
are falsy (`if not target_worker:` in main.py line 113). -/
def pyTruthy : Option String → Bool
  | none => false
  | some s => !(s == "")

inductive Strategy : Type where
  | cacheAware
  | leastLoaded
  | roundRobin
  deriving DecidableEq

/-- Router process state: the global `cache_map` plus the module-level
`round_robin_index` of main.py. -/
structure RouterState : Type where
  cm : GlobalCacheMap
  rrIndex : Nat

def initRouter : RouterState := ⟨initCM, 0⟩

/-- `route_round_robin` (main.py lines 49-58). -/
def routeRoundRobin (rs : RouterState) : Option WorkerId × RouterState :=
  let workers := rs.cm.workerLoad.map Prod.fst
  if workers = [] then (none, rs)
  else (some (workers.getD (rs.rrIndex % workers.length) ""),
    { rs with rrIndex := rs.rrIndex + 1 })

/-- Routing outcome returned by a successful `/v1/completions` call. -/
structure GenResult : Type where
  assignedWorker : WorkerId
  matchLength : Nat
  cacheHit : Bool
  deriving DecidableEq

/-- The `generate` handler of `/v1/completions` (main.py lines 60-140),
with the prompt already fingerprinted into `blockHashes` (the tokenizer is
outside the embedded core).  `none` models the
`HTTPException(status_code=503, "No workers available")` raised when
`not target_worker`. -/
def generate (strat : Strategy) (rs : RouterState) (blockHashes : List BlockHash) :
    Option GenResult × RouterState :=
  match strat with
  | .roundRobin =>
      let r := routeRoundRobin rs
      ((if pyTruthy r.1 then some ⟨r.1.getD "", 0, false⟩ else none), r.2)
  | .leastLoaded =>
      let r := rs.cm.getLeastLoadedWorker none
      let cm2 := match r.1 with
        | some u =>
            if u = "" then r.2
            else r.2.updateLoad u (((aget r.2.workerLoad u).getD 0) + 50)
        | none => r.2
      ((if pyTruthy r.1 then some ⟨r.1.getD "", 0, false⟩ else none),
        { rs with cm := cm2 })
  | .cacheAware =>
      let f := rs.cm.findLongestPrefixMatch blockHashes
      if pyTruthy f.1 ∧ 0 < f.2 then
        (some ⟨f.1.getD "", f.2, true⟩, rs)
      else
        let r := rs.cm.getLeastLoadedWorker none
        let cm2 := if pyTruthy r.1 ∧ blockHashes ≠ [] then
            r.2.updateBlockSequence (r.1.getD "") blockHashes
          else r.2
        ((if pyTruthy r.1 then some ⟨r.1.getD "", 0, false⟩ else none),
          { rs with cm := cm2 })

/-- One request arriving at a router endpoint (§4.5 of the spec; handlers
in main.py). -/
inductive RouterOp : Type where
  | heartbeat (w : WorkerId) (load : Int)
  | evictionReport (w : WorkerId) (hs : List BlockHash)
  | syncReport (w : WorkerId) (hs : List BlockHash)
  | completion (strat : Strategy) (q : List BlockHash)
  deriving DecidableEq

def applyRouterOp (rs : RouterState) : RouterOp → RouterState
  | .heartbeat w l => { rs with cm := rs.cm.updateLoad w l }
  | .evictionReport w hs =>
      { rs with cm := hs.foldl (fun c h => c.evict w h) rs.cm }
  | .syncReport w hs => { rs with cm := rs.cm.syncWorkerState w hs }
  | .completion strat q => (generate strat rs q).2

def applyRouterOps (rs : RouterState) (ops : List RouterOp) : RouterState :=
  ops.foldl applyRouterOp rs

/-- The worker id carried by an endpoint request is a nonempty string
(workers name themselves `worker-<n>`; the empty string is degenerate). -/
def opWorkerNonempty : RouterOp → Prop
  | .heartbeat w _ => w ≠ ""
  | .evictionReport w _ => w ≠ ""
  | .syncReport w _ => w ≠ ""
  | .completion _ _ => True

/-- Invariant of endpoint-reachable cache maps: all known worker ids are
nonempty, and every worker registered anywhere in the trie has a load
entry. -/
def CMInv (c : GlobalCacheMap) : Prop :=
  (∀ k ∈ c.workerLoad.map Prod.fst, k ≠ "") ∧
  (∀ (p : List BlockHash) (u : WorkerId),
    u ∈ workersAt c.prefixTreeRoot p → (aget c.workerLoad u).isSome = true)

def RouterInv (rs : RouterState) : Prop := CMInv rs.cm

theorem workersAt_nil (n : PrefixTreeNode) : workersAt n [] = n.workers := rfl

theorem nodeAtPath_cons (n : PrefixTreeNode) (h : BlockHash) (p : List BlockHash) :
    nodeAtPath n (h :: p) =
      (match childNode n h with
       | some c => nodeAtPath c p
       | none => none) := rfl

theorem workersAt_cons_some {n c : PrefixTreeNode} {h : BlockHash}
    (p : List BlockHash) (hc : childNode n h = some c) :
    workersAt n (h :: p) = workersAt c p := by
  unfold workersAt
  rw [nodeAtPath_cons, hc]

theorem workersAt_cons_none {n : PrefixTreeNode} {h : BlockHash}
    (p : List BlockHash) (hc : childNode n h = none) :
    workersAt n (h :: p) = [] := by
  unfold workersAt
  rw [nodeAtPath_cons, hc]

theorem childNode_setChild (n : PrefixTreeNode) (h : BlockHash)
    (c : PrefixTreeNode) (h' : BlockHash) :
    childNode (setChild n h c) h' = if h' = h then some c else childNode n h' := by
  unfold childNode setChild
  show aget (aset n.children h c) h' = _
  rw [aget_aset]

theorem prefixTreeNode_eta (c : PrefixTreeNode) :
    PrefixTreeNode.mk c.children c.workers = c := by
  cases c
  rfl

theorem workersAt_replaceWorkers (ch : List (BlockHash × PrefixTreeNode))
    (ws ws' : List WorkerId) (p : List BlockHash) (hp : p ≠ []) :
    workersAt (PrefixTreeNode.mk ch ws') p = workersAt (PrefixTreeNode.mk ch ws) p := by
  cases p with
  | nil => exact absurd rfl hp
  | cons h p' =>
      have h1 : childNode (PrefixTreeNode.mk ch ws') h = aget ch h := rfl
      have h2 : childNode (PrefixTreeNode.mk ch ws) h = aget ch h := rfl
      cases hc : aget ch h with
      | some c =>
          rw [workersAt_cons_some p' (h1.trans hc), workersAt_cons_some p' (h2.trans hc)]
      | none =>
          rw [workersAt_cons_none p' (h1.trans hc), workersAt_cons_none p' (h2.trans hc)]

theorem mem_workersAt_addPath (w u : WorkerId) :
    ∀ (seq : List BlockHash) (n : PrefixTreeNode) (p : List BlockHash),
      u ∈ workersAt (addPath w n seq) p → u = w ∨ u ∈ workersAt n p := by
  intro seq
  induction seq with
  | nil => intro n p hu; exact Or.inr hu
  | cons h rest ih =>
      intro n p hu
      rw [addPath] at hu
      cases p with
      | nil => exact Or.inr hu
      | cons h' p' =>
          by_cases hh : h' = h
          · subst hh
            rw [workersAt_cons_some p' (childNode_setChild_self n h' _)] at hu
            rcases ih _ p' hu with rfl | hc'
            · exact Or.inl rfl
            · cases hcn : childNode n h' with
              | some c0 =>
                  rw [hcn] at hc'
                  simp only [Option.getD_some] at hc'
                  cases p' with
                  | nil =>
                      rw [workersAt_nil] at hc'
                      rw [workersAt_cons_some [] hcn, workersAt_nil]
                      rcases (mem_sadd w u _).mp hc' with rfl | hcc
                      · exact Or.inl rfl
                      · exact Or.inr hcc
                  | cons h2 p2 =>
                      right
                      rw [workersAt_cons_some (h2 :: p2) hcn]
                      have hrw := workersAt_replaceWorkers c0.children c0.workers
                        (sadd w c0.workers) (h2 :: p2) (by simp)
                      rw [hrw, prefixTreeNode_eta] at hc'
                      exact hc'
              | none =>
                  rw [hcn] at hc'
                  simp only [Option.getD_none] at hc'
                  cases p' with
                  | nil =>
                      rw [workersAt_nil] at hc'
                      rcases (mem_sadd w u _).mp hc' with rfl | hcc
                      · exact Or.inl rfl
                      · simp [PrefixTreeNode.empty, PrefixTreeNode.workers] at hcc
                  | cons h2 p2 =>
                      exfalso
                      have hnone : childNode (PrefixTreeNode.mk
                          PrefixTreeNode.empty.children
                          (sadd w PrefixTreeNode.empty.workers)) h2 = none := rfl
                      rw [workersAt_cons_none p2 hnone] at hc'
                      simp at hc'
          · have hcs : childNode (setChild n h (addPath w (PrefixTreeNode.mk
                ((childNode n h).getD PrefixTreeNode.empty).children
                (sadd w ((childNode n h).getD PrefixTreeNode.empty).workers)) rest)) h' =
                childNode n h' := by
              rw [childNode_setChild, if_neg hh]
            cases hcn : childNode n h' with
            | some c0 =>
                right
                rw [workersAt_cons_some p' hcn]
                rw [workersAt_cons_some p' (hcs.trans hcn)] at hu
                exact hu
            | none =>
                rw [workersAt_cons_none p' (hcs.trans hcn)] at hu
                simp at hu

theorem mem_workersAt_removeWalk (w u : WorkerId) :
    ∀ (seq : List BlockHash) (n : PrefixTreeNode) (p : List BlockHash),
      u ∈ workersAt (removeWalk w n seq) p → u ∈ workersAt n p := by
  intro seq
  induction seq with
  | nil => intro n p hu; exact hu
  | cons h rest ih =>
      intro n p hu
      rw [removeWalk] at hu
      cases hcn : childNode n h with
      | none =>
          rw [hcn] at hu
          exact ih n p hu
      | some c =>
          rw [hcn] at hu
          cases p with
          | nil => exact hu
          | cons h' p' =>
              by_cases hh : h' = h
              · subst hh
                rw [workersAt_cons_some p' (childNode_setChild_self n h' _)] at hu
                have hc' := ih _ p' hu
                rw [workersAt_cons_some p' hcn]
                cases p' with
                | nil =>
                    rw [workersAt_nil] at hc' ⊢
                    exact (List.mem_filter.mp hc').1
                | cons h2 p2 =>
                    have hrw := workersAt_replaceWorkers c.children c.workers
                      (c.workers.filter (fun v => v ≠ w)) (h2 :: p2) (by simp)
                    rw [hrw, prefixTreeNode_eta] at hc'
                    exact hc'
              · have hcs : childNode (setChild n h (removeWalk w (PrefixTreeNode.mk
                    c.children (c.workers.filter (fun v => v ≠ w))) rest)) h' =
                    childNode n h' := by
                  rw [childNode_setChild, if_neg hh]
                cases hcn' : childNode n h' with
                | some c0 =>
                    rw [workersAt_cons_some p' hcn']
                    rw [workersAt_cons_some p' (hcs.trans hcn')] at hu
                    exact hu
                | none =>
                    rw [workersAt_cons_none p' (hcs.trans hcn')] at hu
                    simp at hu

theorem foldl_min_mem : ∀ (xs : List Int) (x : Int),
    xs.foldl (fun b y => if y < b then y else b) x ∈ x :: xs := by
  intro xs
  induction xs with
  | nil => intro x; simp
  | cons y t ih =>
      intro x
      rw [List.foldl_cons]
      by_cases hy : y < x
      · rw [if_pos hy]
        rcases List.mem_cons.mp (ih y) with hm | hm
        · simp [hm]
        · simp [hm]
      · rw [if_neg hy]
        rcases List.mem_cons.mp (ih x) with hm | hm
        · simp [hm]
        · simp [hm]

theorem minIntList_mem (l : List Int) (hne : l ≠ []) : minIntList l ∈ l := by
  cases l with
  | nil => exact absurd rfl hne
  | cons x xs =>
      rw [minIntList]
      exact foldl_min_mem xs x

theorem getLLW_empty (s : GlobalCacheMap) (cand : Option (List WorkerId))
    (h : s.workerLoad = []) : s.getLeastLoadedWorker cand = (none, s) := by
  unfold GlobalCacheMap.getLeastLoadedWorker
  rw [if_pos h]

theorem getLLW_frame (s : GlobalCacheMap) (cand : Option (List WorkerId)) :
    ((s.getLeastLoadedWorker cand).2).workerLoad = s.workerLoad ∧
    ((s.getLeastLoadedWorker cand).2).prefixTreeRoot = s.prefixTreeRoot ∧
    ((s.getLeastLoadedWorker cand).2).map = s.map ∧
    ((s.getLeastLoadedWorker cand).2).workerToHashes = s.workerToHashes ∧
    ((s.getLeastLoadedWorker cand).2).workerBlockSequences = s.workerBlockSequences := by
  unfold GlobalCacheMap.getLeastLoadedWorker
  by_cases h0 : s.workerLoad = []
  · rw [if_pos h0]
    exact ⟨rfl, rfl, rfl, rfl, rfl⟩
  · rw [if_neg h0]
    dsimp only
    split
    · exact ⟨rfl, rfl, rfl, rfl, rfl⟩
    · exact ⟨rfl, rfl, rfl, rfl, rfl⟩

theorem getLLW_some_of_ne (s : GlobalCacheMap) (hne : s.workerLoad ≠ []) :
    ∃ u, (s.getLeastLoadedWorker none).1 = some u ∧
      u ∈ s.workerLoad.map Prod.fst := by
  unfold GlobalCacheMap.getLeastLoadedWorker
  rw [if_neg hne]
  dsimp only
  have hvalid : (s.workerLoad.map Prod.fst).filter
      (fun w => (aget s.workerLoad w).isSome) = s.workerLoad.map Prod.fst := by
    rw [List.filter_eq_self]
    intro k hk
    obtain ⟨v, hv, _⟩ := aget_mem_of_mem_keys _ _ hk
    rw [hv]
    rfl
  rw [hvalid]
  have hkeysne : s.workerLoad.map Prod.fst ≠ [] :=
    fun hx => hne (List.map_eq_nil_iff.mp hx)
  rw [if_neg hkeysne]
  have hminMem : minIntList ((s.workerLoad.map Prod.fst).map
      (fun w => (aget s.workerLoad w).getD 0)) ∈
      (s.workerLoad.map Prod.fst).map (fun w => (aget s.workerLoad w).getD 0) :=
    minIntList_mem _ (by simpa using hkeysne)
  obtain ⟨k0, hk0, hk0v⟩ := List.mem_map.mp hminMem
  have hmlwne : (s.workerLoad.map Prod.fst).filter
      (fun w => (aget s.workerLoad w).getD 0 =
        minIntList ((s.workerLoad.map Prod.fst).map
          (fun w => (aget s.workerLoad w).getD 0))) ≠ [] := by
    intro hx
    have hmem : k0 ∈ (s.workerLoad.map Prod.fst).filter
        (fun w => (aget s.workerLoad w).getD 0 =
          minIntList ((s.workerLoad.map Prod.fst).map
            (fun w => (aget s.workerLoad w).getD 0))) :=
      List.mem_filter.mpr ⟨hk0, by simp [hk0v]⟩
    rw [hx] at hmem
    simp at hmem
  have hlen : 0 < ((s.workerLoad.map Prod.fst).filter
      (fun w => (aget s.workerLoad w).getD 0 =
        minIntList ((s.workerLoad.map Prod.fst).map
          (fun w => (aget s.workerLoad w).getD 0)))).length :=
    List.length_pos.mpr hmlwne
  refine ⟨_, rfl, ?_⟩
  have hidx := Nat.mod_lt (aget s.leastLoadedRRIndex (sortStrings
      ((s.workerLoad.map Prod.fst).filter
        (fun w => (aget s.workerLoad w).getD 0 =
          minIntList ((s.workerLoad.map Prod.fst).map
            (fun w => (aget s.workerLoad w).getD 0))))) |>.getD 0) hlen
  have hmm : ((s.workerLoad.map Prod.fst).filter
      (fun w => (aget s.workerLoad w).getD 0 =
        minIntList ((s.workerLoad.map Prod.fst).map
          (fun w => (aget s.workerLoad w).getD 0)))).getD
      (((aget s.leastLoadedRRIndex (sortStrings
        ((s.workerLoad.map Prod.fst).filter
          (fun w => (aget s.workerLoad w).getD 0 =
            minIntList ((s.workerLoad.map Prod.fst).map
              (fun w => (aget s.workerLoad w).getD 0)))))).getD 0) %
        ((s.workerLoad.map Prod.fst).filter
          (fun w => (aget s.workerLoad w).getD 0 =
            minIntList ((s.workerLoad.map Prod.fst).map
              (fun w => (aget s.workerLoad w).getD 0)))).length) "" ∈
      (s.workerLoad.map Prod.fst).filter
        (fun w => (aget s.workerLoad w).getD 0 =
          minIntList ((s.workerLoad.map Prod.fst).map
            (fun w => (aget s.workerLoad w).getD 0))) := by
    rw [List.getD_eq_getElem _ _ hidx]
    exact List.getElem_mem hidx
  exact List.mem_of_mem_filter hmm

theorem mem_workersAt_removeWorkerFromTree (s : GlobalCacheMap) (w u : WorkerId)
    (p : List BlockHash) (hu : u ∈ workersAt (removeWorkerFromTree s w) p) :
    u ∈ workersAt s.prefixTreeRoot p := by
  unfold removeWorkerFromTree at hu
  cases hsq : aget s.workerBlockSequences w with
  | none => rw [hsq] at hu; exact hu
  | some seq =>
      rw [hsq] at hu
      exact mem_workersAt_removeWalk w u seq _ p hu

theorem mem_workersAt_updateBlockSequence (s : GlobalCacheMap) (w : WorkerId)
    (seq : List BlockHash) (u : WorkerId) (p : List BlockHash)
    (hu : u ∈ workersAt (s.updateBlockSequence w seq).prefixTreeRoot p) :
    u = w ∨ u ∈ workersAt s.prefixTreeRoot p := by
  have hroot : (s.updateBlockSequence w seq).prefixTreeRoot =
      addPath w (removeWorkerFromTree
        { s with workerBlockSequences := aset s.workerBlockSequences w seq } w) seq := rfl
  rw [hroot] at hu
  rcases mem_workersAt_addPath w u seq _ p hu with rfl | h2
  · exact Or.inl rfl
  · exact Or.inr (mem_workersAt_removeWorkerFromTree
      { s with workerBlockSequences := aset s.workerBlockSequences w seq } w u p h2)

theorem mem_workersAt_sync (s : GlobalCacheMap) (w : WorkerId)
    (A : List BlockHash) (u : WorkerId) (p : List BlockHash)
    (hu : u ∈ workersAt (s.syncWorkerState w A).prefixTreeRoot p) :
    u = w ∨ u ∈ workersAt s.prefixTreeRoot p := by
  unfold GlobalCacheMap.syncWorkerState at hu
  cases hr : aget s.workerToHashes w with
  | none =>
      rw [hr] at hu
      dsimp only at hu
      by_cases hA : A = []
      · rw [if_pos hA] at hu
        exact Or.inr (mem_workersAt_removeWorkerFromTree _ w u p hu)
      · rw [if_neg hA] at hu
        rw [addActiveHashes_prefixTreeRoot] at hu
        rcases mem_workersAt_updateBlockSequence _ w A u p hu with rfl | h2
        · exact Or.inl rfl
        · exact Or.inr (mem_workersAt_removeWorkerFromTree _ w u p h2)
  | some hs =>
      rw [hr] at hu
      dsimp only at hu
      by_cases hA : A = []
      · rw [if_pos hA] at hu
        exact Or.inr (mem_workersAt_removeWorkerFromTree _ w u p hu)
      · rw [if_neg hA] at hu
        rw [addActiveHashes_prefixTreeRoot] at hu
        rcases mem_workersAt_updateBlockSequence _ w A u p hu with rfl | h2
        · exact Or.inl rfl
        · exact Or.inr (mem_workersAt_removeWorkerFromTree _ w u p h2)

theorem mem_workersAt_evict (s : GlobalCacheMap) (w h : BlockHash) (u : WorkerId)
    (p : List BlockHash) (hu : u ∈ workersAt (s.evict w h).prefixTreeRoot p) :
    u ∈ workersAt s.prefixTreeRoot p := by
  have hroot : (s.evict w h).prefixTreeRoot = removeWorkerFromTree s w := rfl
  rw [hroot] at hu
  exact mem_workersAt_removeWorkerFromTree s w u p hu

theorem evict_workerLoad (s : GlobalCacheMap) (w : WorkerId) (h : BlockHash) :
    (s.evict w h).workerLoad = s.workerLoad := rfl

theorem mem_keys_aset {κ ν : Type} [DecidableEq κ] (v : ν) :
    ∀ (d : List (κ × ν)) (k k' : κ), k' ∈ (aset d k v).map Prod.fst →
      k' = k ∨ k' ∈ d.map Prod.fst := by
  intro d
  induction d with
  | nil =>
      intro k k' h
      simp [aset] at h
      exact Or.inl h
  | cons p rest ih =>
      intro k k' h
      obtain ⟨k0, v0⟩ := p
      by_cases hk : k = k0
      · subst hk
        rw [show aset ((k, v0) :: rest) k v = (k, v) :: rest from by
          simp [aset]] at h
        simp only [List.map_cons, List.mem_cons] at h
        rcases h with rfl | h2
        · exact Or.inl rfl
        · exact Or.inr (by simp only [List.map_cons, List.mem_cons]; exact Or.inr h2)
      · simp only [aset, if_neg hk, List.map_cons, List.mem_cons] at h
        rcases h with rfl | h
        · exact Or.inr (by simp)
        · rcases ih k k' h with rfl | h2
          · exact Or.inl rfl
          · exact Or.inr (by simp [h2])

theorem isSome_aget_aset {κ ν : Type} [DecidableEq κ] (d : List (κ × ν))
    (k k' : κ) (v : ν) (h : (aget d k').isSome = true) :
    (aget (aset d k v) k').isSome = true := by
  rw [aget_aset]
  by_cases hk : k' = k
  · rw [if_pos hk]; rfl
  · rw [if_neg hk]; exact h

theorem workersAt_of_nodeAtPath {n m : PrefixTreeNode} {p : List BlockHash}
    (h : nodeAtPath n p = some m) : workersAt n p = m.workers := by
  unfold workersAt
  rw [h]

theorem pyTruthy_some_ne {u : WorkerId} (h : u ≠ "") :
    pyTruthy (some u) = true := by
  simp [pyTruthy, h]

theorem generate_roundRobin_cm (rs : RouterState) (q : List BlockHash) :
    ((generate .roundRobin rs q).2).cm = rs.cm := by
  unfold generate routeRoundRobin
  dsimp only
  split <;> rfl

theorem cmInv_updateLoad (c : GlobalCacheMap) (w : WorkerId) (l : Int)
    (hw : w ≠ "") (hinv : CMInv c) : CMInv (c.updateLoad w l) := by
  obtain ⟨hkeys, htrie⟩ := hinv
  constructor
  · intro k hk
    rcases mem_keys_aset l c.workerLoad w k hk with rfl | hold
    · exact hw
    · exact hkeys k hold
  · intro p u hu
    exact isSome_aget_aset _ _ _ _ (htrie p u hu)

theorem cmInv_evict (c : GlobalCacheMap) (w : WorkerId) (h : BlockHash)
    (hinv : CMInv c) : CMInv (c.evict w h) := by
  obtain ⟨hkeys, htrie⟩ := hinv
  constructor
  · intro k hk
    exact hkeys k hk
  · intro p u hu
    exact htrie p u (mem_workersAt_evict c w h u p hu)

theorem cmInv_evictFold (w : WorkerId) :
    ∀ (hs : List BlockHash) (c : GlobalCacheMap), CMInv c →
      CMInv (hs.foldl (fun c h => c.evict w h) c) := by
  intro hs
  induction hs with
  | nil => intro c hinv; exact hinv
  | cons h rest ih =>
      intro c hinv
      exact ih (c.evict w h) (cmInv_evict c w h hinv)

theorem cmInv_sync (c : GlobalCacheMap) (w : WorkerId) (A : List BlockHash)
    (hw : w ≠ "") (hinv : CMInv c) : CMInv (c.syncWorkerState w A) := by
  obtain ⟨hkeys, htrie⟩ := hinv
  constructor
  · intro k hk
    rw [syncWorkerState_workerLoad] at hk
    rcases mem_keys_aset _ c.workerLoad w k hk with rfl | hold
    · exact hw
    · exact hkeys k hold
  · intro p u hu
    rw [syncWorkerState_workerLoad]
    rcases mem_workersAt_sync c w A u p hu with rfl | hold
    · rw [aget_aset, if_pos rfl]
      rfl
    · exact isSome_aget_aset _ _ _ _ (htrie p u hold)

theorem cmInv_getLLW (c : GlobalCacheMap) (cand : Option (List WorkerId))
    (hinv : CMInv c) : CMInv (c.getLeastLoadedWorker cand).2 := by
  obtain ⟨hfl, hfr, _, _, _⟩ := getLLW_frame c cand
  obtain ⟨hkeys, htrie⟩ := hinv
  constructor
  · rw [hfl]
    exact hkeys
  · intro p u hu
    rw [hfr] at hu
    rw [hfl]
    exact htrie p u hu

theorem cmInv_generate_leastLoaded (rs : RouterState) (q : List BlockHash)
    (hinv : CMInv rs.cm) : CMInv ((generate .leastLoaded rs q).2).cm := by
  have hcm : ((generate .leastLoaded rs q).2).cm =
      (match (rs.cm.getLeastLoadedWorker none).1 with
       | some u =>
           if u = "" then (rs.cm.getLeastLoadedWorker none).2
           else (rs.cm.getLeastLoadedWorker none).2.updateLoad u
             (((aget (rs.cm.getLeastLoadedWorker none).2.workerLoad u).getD 0) + 50)
       | none => (rs.cm.getLeastLoadedWorker none).2) := rfl
  rw [hcm]
  have hinv2 : CMInv (rs.cm.getLeastLoadedWorker none).2 := cmInv_getLLW rs.cm none hinv
  cases hr1 : (rs.cm.getLeastLoadedWorker none).1 with
  | none => exact hinv2
  | some u =>
      dsimp only
      by_cases hu0 : u = ""
      · rw [if_pos hu0]
        exact hinv2
      · rw [if_neg hu0]
        exact cmInv_updateLoad _ u _ hu0 hinv2

theorem cmInv_generate_cacheAware (rs : RouterState) (q : List BlockHash)
    (hinv : CMInv rs.cm) : CMInv ((generate .cacheAware rs q).2).cm := by
  unfold generate
  dsimp only
  split
  · exact hinv
  · dsimp only
    by_cases hb : pyTruthy (rs.cm.getLeastLoadedWorker none).1 ∧ q ≠ []
    · rw [if_pos hb]
      have hne : rs.cm.workerLoad ≠ [] := by
        intro h0
        rw [getLLW_empty rs.cm none h0] at hb
        simp [pyTruthy] at hb
      obtain ⟨u, hu, hmem⟩ := getLLW_some_of_ne rs.cm hne
      obtain ⟨hfl, hfr, _, _, _⟩ := getLLW_frame rs.cm none
      have hinv2 : CMInv (rs.cm.getLeastLoadedWorker none).2 := cmInv_getLLW rs.cm none hinv
      obtain ⟨hkeys2, htrie2⟩ := hinv2
      constructor
      · intro k hk
        rw [updateBlockSequence_workerLoad] at hk
        exact hkeys2 k hk
      · intro p v hv
        rw [updateBlockSequence_workerLoad]
        rcases mem_workersAt_updateBlockSequence _ _ q v p hv with hv' | hold
        · subst hv'
          rw [hu]
          show (aget (rs.cm.getLeastLoadedWorker none).2.workerLoad
            ((some u).getD "")).isSome = true
          rw [hfl]
          obtain ⟨vv, hvv, _⟩ := aget_mem_of_mem_keys _ _ hmem
          show (aget rs.cm.workerLoad u).isSome = true
          rw [hvv]
          rfl
        · exact htrie2 p v hold
    · rw [if_neg hb]
      exact cmInv_getLLW rs.cm none hinv

theorem routerInv_applyRouterOp (rs : RouterState) (op : RouterOp)
    (hok : opWorkerNonempty op) (hinv : RouterInv rs) :
    RouterInv (applyRouterOp rs op) := by
  cases op with
  | heartbeat w l => exact cmInv_updateLoad rs.cm w l hok hinv
  | evictionReport w hs => exact cmInv_evictFold w hs rs.cm hinv
  | syncReport w hs => exact cmInv_sync rs.cm w hs hok hinv
  | completion strat q =>
      cases strat with
      | roundRobin =>
          show CMInv ((generate .roundRobin rs q).2).cm
          rw [generate_roundRobin_cm]
          exact hinv
      | leastLoaded => exact cmInv_generate_leastLoaded rs q hinv
      | cacheAware => exact cmInv_generate_cacheAware rs q hinv

theorem routerInv_initRouter : RouterInv initRouter := by
  constructor
  · intro k hk
    simp [initRouter, initCM] at hk
  · intro p u hu
    cases p with
    | nil => simp [initRouter, initCM, workersAt_nil, PrefixTreeNode.empty,
        PrefixTreeNode.workers] at hu
    | cons h p' =>
        rw [workersAt_cons_none p' (by rfl)] at hu
        simp at hu

theorem routerInv_applyRouterOps :
    ∀ (ops : List RouterOp) (rs : RouterState),
      (∀ op ∈ ops, opWorkerNonempty op) → RouterInv rs →
      RouterInv (applyRouterOps rs ops) := by
  intro ops
  induction ops with
  | nil => intro rs _ hinv; exact hinv
  | cons op rest ih =>
      intro rs hok hinv
      exact ih (applyRouterOp rs op) (fun o mem => hok o (by simp [mem]))
        (routerInv_applyRouterOp rs op (hok op (by simp)) hinv)

theorem generate_none_iff (strat : Strategy) (rs : RouterState)
    (q : List BlockHash) (hinv : CMInv rs.cm) :
    ((generate strat rs q).1 = none ↔ rs.cm.workerLoad = []) := by
  cases strat with
  | roundRobin =>
      unfold generate routeRoundRobin
      dsimp only
      by_cases h0 : rs.cm.workerLoad.map Prod.fst = []
      · rw [if_pos h0]
        simp only [pyTruthy, Bool.false_eq_true, if_false]
        constructor
        · intro _
          exact List.map_eq_nil_iff.mp h0
        · intro _
          trivial
      · rw [if_neg h0]
        dsimp only
        have hlen : 0 < (rs.cm.workerLoad.map Prod.fst).length :=
          List.length_pos.mpr h0
        have hidx := Nat.mod_lt rs.rrIndex hlen
        have hmem : (rs.cm.workerLoad.map Prod.fst).getD
            (rs.rrIndex % (rs.cm.workerLoad.map Prod.fst).length) "" ∈
            rs.cm.workerLoad.map Prod.fst := by
          rw [List.getD_eq_getElem _ _ hidx]
          exact List.getElem_mem hidx
        have hne' := hinv.1 _ hmem
        rw [pyTruthy_some_ne hne']
        simp only [if_true]
        constructor
        · intro hx
          cases hx
        · intro hx
          exact absurd (by rw [hx]; rfl) h0
  | leastLoaded =>
      constructor
      · intro hnone
        by_contra hne
        obtain ⟨u, hu, hmem⟩ := getLLW_some_of_ne rs.cm hne
        have hune := hinv.1 u hmem
        unfold generate at hnone
        dsimp only at hnone
        rw [hu, pyTruthy_some_ne hune] at hnone
        simp at hnone
      · intro h0
        unfold generate
        dsimp only
        rw [getLLW_empty rs.cm none h0]
        simp [pyTruthy]
  | cacheAware =>
      constructor
      · intro hnone
        by_contra hne
        unfold generate at hnone
        dsimp only at hnone
        by_cases hhit : pyTruthy (rs.cm.findLongestPrefixMatch q).1 = true ∧
            0 < (rs.cm.findLongestPrefixMatch q).2
        · rw [if_pos hhit] at hnone
          simp at hnone
        · rw [if_neg hhit] at hnone
          obtain ⟨u, hu, hmem⟩ := getLLW_some_of_ne rs.cm hne
          have hune := hinv.1 u hmem
          rw [hu, pyTruthy_some_ne hune] at hnone
          simp at hnone
      · intro h0
        unfold generate
        dsimp only
        have hmiss : ¬(pyTruthy (rs.cm.findLongestPrefixMatch q).1 = true ∧
            0 < (rs.cm.findLongestPrefixMatch q).2) := by
          rintro ⟨ht, _⟩
          cases hf1 : (rs.cm.findLongestPrefixMatch q).1 with
          | none =>
              rw [hf1] at ht
              simp [pyTruthy] at ht
          | some u =>
              have hfind : rs.cm.findLongestPrefixMatch q =
                  (some u, (rs.cm.findLongestPrefixMatch q).2) := by
                rw [← hf1]
              obtain ⟨_, m, hnode, _, hlla, _⟩ :=
                findLongestPrefixMatch_spec rs.cm q u _ hfind
              have huw : u ∈ workersAt rs.cm.prefixTreeRoot
                  (q.take (rs.cm.findLongestPrefixMatch q).2) := by
                rw [workersAt_of_nodeAtPath hnode]
                exact hlla.1
              have hsome := hinv.2 _ u huw
              rw [h0] at hsome
              simp [aget] at hsome
        rw [if_neg hmiss]
        dsimp only
        rw [getLLW_empty rs.cm none h0]
        simp [pyTruthy]

/-- C7 (counterexample): the claimed equivalence "503 iff the load table
is empty" fails on the code for the degenerate worker id `""`.  A
heartbeat may register the empty string as a worker id; the load table is
then nonempty, but the handler's truthiness check `if not target_worker:`
treats the selected worker `""` as falsy and raises 503. -/
theorem C7_empty_worker_id_counterexample :
    (generate .leastLoaded
      (applyRouterOps initRouter [RouterOp.heartbeat "" 0]) []).1 = none ∧
    (applyRouterOps initRouter [RouterOp.heartbeat "" 0]).cm.workerLoad ≠ [] := by
  constructor
  · decide
  · decide

/-- C7 (amended): in every state reachable through the HTTP endpoints by
requests whose worker ids are nonempty strings, a POST to
`/v1/completions` raises 503 (`NoWorkersAvailable`) if and only if the
load table is empty at routing time — and this holds for each of the
three strategies. -/
theorem C7_503_iff_no_workers (ops : List RouterOp)
    (hok : ∀ op ∈ ops, opWorkerNonempty op) (strat : Strategy)
    (q : List BlockHash) :
    ((generate strat (applyRouterOps initRouter ops) q).1 = none ↔
      (applyRouterOps initRouter ops).cm.workerLoad = []) :=
  generate_none_iff strat (applyRouterOps initRouter ops) q
    (routerInv_applyRouterOps ops initRouter hok routerInv_initRouter)

/-- Witness for C7 (amended) at a concrete trace: after a heartbeat from
worker `"a"`, a completion under each strategy does not raise 503, and
with no trace every strategy raises 503. -/
theorem C7_503_iff_no_workers_witness :
    ((generate .leastLoaded
        (applyRouterOps initRouter [RouterOp.heartbeat "a" 0]) []).1 = none ↔
      (applyRouterOps initRouter [RouterOp.heartbeat "a" 0]).cm.workerLoad = []) ∧
    ((generate .cacheAware (applyRouterOps initRouter []) ["h"]).1 = none ↔
      (applyRouterOps initRouter []).cm.workerLoad = []) := by
  constructor
  · exact C7_503_iff_no_workers [RouterOp.heartbeat "a" 0]
      (by
        intro op hop
        rcases List.mem_singleton.mp hop with rfl
        exact (by decide : ("a" : WorkerId) ≠ ""))
      .leastLoaded []
  · exact C7_503_iff_no_workers [] (by intro op hop; simp at hop) .cacheAware ["h"]

/-! ## Claim C9: staleness and heartbeat recency -/

/-- A trace of endpoint requests with their arrival times (milliseconds).
The router handlers (main.py) receive no timestamps and store none — the
fold simply applies each operation, ignoring the time component. -/
def applyTimedOps (rs : RouterState) (tr : List (Nat × RouterOp)) : RouterState :=
  tr.foldl (fun st top => applyRouterOp st top.2) rs

/-- Arrival time of the last heartbeat from `w` in a trace. -/
def lastHeartbeatTime (tr : List (Nat × RouterOp)) (w : WorkerId) : Option Nat :=
  tr.foldl (fun acc top =>
    match top.2 with
    | RouterOp.heartbeat w' _ => if w' = w then some top.1 else acc
    | _ => acc) none

/-- The staleness bound `T` of the claim: three times the worker heartbeat
interval of 1 s (mock_worker.py `asyncio.sleep(1)`), in milliseconds. -/
def staleBoundMs : Nat := 3 * 1000

/-- Whether worker `w` is stale at time `now`: more than `T` has elapsed
since its last heartbeat (a worker with no heartbeat at all is stale). -/
def isStaleAt (tr : List (Nat × RouterOp)) (w : WorkerId) (now : Nat) : Bool :=
  match lastHeartbeatTime tr w with
  | some t => staleBoundMs < now - t
  | none => true

def c9Trace : List (Nat × RouterOp) :=
  [(0, RouterOp.heartbeat "a" 0), (500, RouterOp.syncReport "a" ["h"])]

/-- C9 (counterexample): worker `"a"` heartbeats at t = 0 ms and syncs at
t = 500 ms; at t = 1 000 000 ms it is stale (no heartbeat for far more
than 3× the heartbeat interval), yet `get_least_loaded_worker` still
returns it and `find_longest_prefix_match` still matches it — the code
keeps no heartbeat timestamps and never excludes a worker by staleness. -/
theorem C9_stale_worker_still_returned :
    isStaleAt c9Trace "a" 1000000 = true ∧
    ((applyTimedOps initRouter c9Trace).cm.getLeastLoadedWorker none).1 = some "a" ∧
    (applyTimedOps initRouter c9Trace).cm.findLongestPrefixMatch ["h"] =
      (some "a", 1) := by
  refine ⟨?_, ?_, ?_⟩ <;> decide

theorem evictFold_workerLoad (w : WorkerId) :
    ∀ (hs : List BlockHash) (c : GlobalCacheMap),
      (hs.foldl (fun c h => c.evict w h) c).workerLoad = c.workerLoad := by
  intro hs
  induction hs with
  | nil => intro c; rfl
  | cons h rest ih =>
      intro c
      rw [List.foldl_cons, ih]
      rfl

theorem isSome_load_applyRouterOp (rs : RouterState) (op : RouterOp)
    (w : WorkerId) (h : (aget rs.cm.workerLoad w).isSome = true) :
    (aget (applyRouterOp rs op).cm.workerLoad w).isSome = true := by
  cases op with
  | heartbeat w' l => exact isSome_aget_aset _ _ _ _ h
  | evictionReport w' hs =>
      show (aget (hs.foldl (fun c h => c.evict w' h) rs.cm).workerLoad w).isSome = true
      rw [evictFold_workerLoad]
      exact h
  | syncReport w' hs =>
      show (aget (rs.cm.syncWorkerState w' hs).workerLoad w).isSome = true
      rw [syncWorkerState_workerLoad]
      exact isSome_aget_aset _ _ _ _ h
  | completion strat q =>
      cases strat with
      | roundRobin =>
          show (aget ((generate .roundRobin rs q).2).cm.workerLoad w).isSome = true
          rw [generate_roundRobin_cm]
          exact h
      | leastLoaded =>
          obtain ⟨hfl, _, _, _, _⟩ := getLLW_frame rs.cm none
          have hcm : ((generate .leastLoaded rs q).2).cm =
              (match (rs.cm.getLeastLoadedWorker none).1 with
               | some u =>
                   if u = "" then (rs.cm.getLeastLoadedWorker none).2
                   else (rs.cm.getLeastLoadedWorker none).2.updateLoad u
                     (((aget (rs.cm.getLeastLoadedWorker none).2.workerLoad u).getD 0) + 50)
               | none => (rs.cm.getLeastLoadedWorker none).2) := rfl
          show (aget ((generate .leastLoaded rs q).2).cm.workerLoad w).isSome = true
          rw [hcm]
          cases (rs.cm.getLeastLoadedWorker none).1 with
          | none =>
              rw [hfl]
              exact h
          | some u =>
              dsimp only
              by_cases hu0 : u = ""
              · rw [if_pos hu0, hfl]
                exact h
              · rw [if_neg hu0]
                show (aget (aset (rs.cm.getLeastLoadedWorker none).2.workerLoad u _) w).isSome = true
                exact isSome_aget_aset _ _ _ _ (by rw [hfl]; exact h)
      | cacheAware =>
          show (aget ((generate .cacheAware rs q).2).cm.workerLoad w).isSome = true
          unfold generate
          dsimp only
          obtain ⟨hfl, _, _, _, _⟩ := getLLW_frame rs.cm none
          split
          · exact h
          · dsimp only
            split
            · rw [updateBlockSequence_workerLoad, hfl]
              exact h
            · rw [hfl]
              exact h

theorem isSome_load_applyRouterOps :
    ∀ (ops : List RouterOp) (rs : RouterState) (w : WorkerId),
      (aget rs.cm.workerLoad w).isSome = true →
      (aget (applyRouterOps rs ops).cm.workerLoad w).isSome = true := by
  intro ops
  induction ops with
  | nil => intro rs w h; exact h
  | cons op rest ih =>
      intro rs w h
      exact ih (applyRouterOp rs op) w (isSome_load_applyRouterOp rs op w h)

theorem applyTimedOps_eq (rs : RouterState) :
    ∀ tr : List (Nat × RouterOp),
      applyTimedOps rs tr = applyRouterOps rs (tr.map Prod.snd) := by
  intro tr
  induction tr generalizing rs with
  | nil => rfl
  | cons top rest ih =>
      show applyTimedOps (applyRouterOp rs top.2) rest =
        applyRouterOps rs ((top :: rest).map Prod.snd)
      rw [ih]
      rfl

/-- C9 (amended): the router performs no staleness filtering at all.  The
endpoint handlers ignore arrival times entirely (two traces with the same
requests in the same order produce identical states no matter when the
requests arrive), a worker once known keeps its load-table entry under
every further operation, and whenever any worker is known
`get_least_loaded_worker` returns a worker — no candidate is ever
excluded for lack of a recent heartbeat. -/
theorem C9_no_staleness_filtering (tr tr' : List (Nat × RouterOp))
    (rs : RouterState) (w : WorkerId)
    (hsameops : tr.map Prod.snd = tr'.map Prod.snd)
    (hknown : (aget rs.cm.workerLoad w).isSome = true) :
    applyTimedOps rs tr = applyTimedOps rs tr' ∧
    (aget (applyTimedOps rs tr).cm.workerLoad w).isSome = true ∧
    ∃ u, ((applyTimedOps rs tr).cm.getLeastLoadedWorker none).1 = some u ∧
      u ∈ (applyTimedOps rs tr).cm.workerLoad.map Prod.fst := by
  have h1 : applyTimedOps rs tr = applyTimedOps rs tr' := by
    rw [applyTimedOps_eq, applyTimedOps_eq, hsameops]
  have h2 : (aget (applyTimedOps rs tr).cm.workerLoad w).isSome = true := by
    rw [applyTimedOps_eq]
    exact isSome_load_applyRouterOps _ rs w hknown
  refine ⟨h1, h2, ?_⟩
  have hne : (applyTimedOps rs tr).cm.workerLoad ≠ [] := by
    intro h0
    rw [h0] at h2
    simp [aget] at h2
  exact getLLW_some_of_ne _ hne

/-- Witness for C9 (amended): concrete worker `"a"` known via heartbeat;
the same requests arriving at times 0/500 or 10⁶/2·10⁶ give the same
state, and `"a"` is still returned. -/
theorem C9_no_staleness_filtering_witness :
    applyTimedOps (applyRouterOps initRouter [RouterOp.heartbeat "a" 0]) c9Trace =
      applyTimedOps (applyRouterOps initRouter [RouterOp.heartbeat "a" 0])
        [(1000000, RouterOp.heartbeat "a" 0), (2000000, RouterOp.syncReport "a" ["h"])] ∧
    (aget (applyTimedOps (applyRouterOps initRouter [RouterOp.heartbeat "a" 0])
      c9Trace).cm.workerLoad "a").isSome = true ∧
    ∃ u, ((applyTimedOps (applyRouterOps initRouter [RouterOp.heartbeat "a" 0])
        c9Trace).cm.getLeastLoadedWorker none).1 = some u ∧
      u ∈ (applyTimedOps (applyRouterOps initRouter [RouterOp.heartbeat "a" 0])
        c9Trace).cm.workerLoad.map Prod.fst :=
  C9_no_staleness_filtering c9Trace
    [(1000000, RouterOp.heartbeat "a" 0), (2000000, RouterOp.syncReport "a" ["h"])]
    (applyRouterOps initRouter [RouterOp.heartbeat "a" 0]) "a" (by decide) (by decide)

/-!
## Worker-side block cache (`src/scripts/mock_worker.py`, class `BlockCache`)

`BlockInfo` drops the redundant `block_hash` field (the dict key carries it;
the code always stores the entry under its own hash).  `last_used` is a
`time.time()` stamp; calls take an explicit `now : Nat` in its place.  The
`evictable_queue` is a `heapq` of `(last_used, block_index, block_hash)`
tuples: the heap's internal layout never matters, only which element
`heappop` returns (the lexicographically least tuple), so the queue is kept
as a plain list and popping removes the least tuple.
-/

structure BlockInfo : Type where
  refCount : Int
  lastUsed : Nat
  evictable : Bool
  sequenceId : Option String
  blockIndex : Nat
deriving DecidableEq

structure BlockCache : Type where
  maxBlocks : Nat
  blocks : List (BlockHash × BlockInfo)
  evictableQueue : List (Nat × Nat × BlockHash)
  sequenceBlocks : List (String × List BlockHash)
  activeSequences : List (List BlockHash)
deriving DecidableEq

/-- Strict lexicographic comparison on code points (Python `<` on `str`). -/
def strListLt : List Char → List Char → Bool
  | [], [] => false
  | [], _ :: _ => true
  | _ :: _, [] => false
  | c :: cs, d :: ds =>
      if c.toNat < d.toNat then true
      else if d.toNat < c.toNat then false
      else strListLt cs ds

def strLt (a b : String) : Bool := strListLt a.data b.data

/-- Python tuple `<` on `(last_used, block_index, block_hash)`. -/
def qLtB (a b : Nat × Nat × BlockHash) : Bool :=
  if a.1 < b.1 then true
  else if b.1 < a.1 then false
  else if a.2.1 < b.2.1 then true
  else if b.2.1 < a.2.1 then false
  else strLt a.2.2 b.2.2

/-- `heapq.heappop`: return the least tuple and the queue without it. -/
def popMinQ (q : List (Nat × Nat × BlockHash)) :
    Option ((Nat × Nat × BlockHash) × List (Nat × Nat × BlockHash)) :=
  match q with
  | [] => none
  | e :: rest =>
      let m := rest.foldl (fun b y => if qLtB y b then y else b) e
      some (m, q.erase m)

/-- The `while self.evictable_queue:` loop of `_evict_oldest_block`
(mock_worker.py lines 181-206).  Each iteration pops one entry, so the
loop runs at most `q.length` iterations; callers pass exactly that as
fuel, making the embedding exact. -/
def evictLoop : Nat → List (Nat × Nat × BlockHash) → List (BlockHash × BlockInfo) →
    Option BlockHash × List (Nat × Nat × BlockHash) × List (BlockHash × BlockInfo)
  | 0, q, blocks => (none, q, blocks)
  | fuel + 1, q, blocks =>
      match popMinQ q with
      | none => (none, q, blocks)
      | some (e, qrest) =>
          match aget blocks e.2.2 with
          | none => evictLoop fuel qrest blocks
          | some info =>
              if info.evictable = false ∨ 0 < info.refCount then
                evictLoop fuel qrest blocks
              else
                (some e.2.2, qrest, aremove blocks e.2.2)

/-- Removal of now-dead sequences from `active_sequences` after evicting
`h` (mock_worker.py lines 194-204 and 214-223): a sequence is dropped iff
it contains `h` and none of its blocks is still cached. -/
def cleanupActive (active : List (List BlockHash))
    (blocks : List (BlockHash × BlockInfo)) (h : BlockHash) :
    List (List BlockHash) :=
  active.filter (fun seq =>
    !(seq.contains h && !(seq.any (fun bh => (aget blocks bh).isSome))))

/-- `BlockCache._evict_oldest_block` (mock_worker.py lines 179-227): run the
queue loop; if it yields no candidate and the cache is nonempty, fall back
to deleting the entry with minimal `last_used` (first on ties, as Python's
`min` over the dict's values in insertion order). -/
def evictOldestBlock (c : BlockCache) : Option BlockHash × BlockCache :=
  match evictLoop c.evictableQueue.length c.evictableQueue c.blocks with
  | (some h, q2, blocks2) =>
      (some h,
        { c with
            blocks := blocks2
            evictableQueue := q2
            activeSequences := cleanupActive c.activeSequences blocks2 h })
  | (none, q2, _) =>
      match c.blocks with
      | [] => (none, { c with evictableQueue := q2 })
      | p :: ps =>
          let oldest := ps.foldl (fun b y => if y.2.lastUsed < b.2.lastUsed then y else b) p
          (some oldest.1,
            { c with
                blocks := aremove c.blocks oldest.1
                evictableQueue := q2
                activeSequences :=
                  cleanupActive c.activeSequences (aremove c.blocks oldest.1) oldest.1 })

/-- `BlockCache._remove_from_evictable` (mock_worker.py lines 229-238):
rebuild the queue without entries for `h` (the `heapify` only changes the
heap layout, not its multiset of entries). -/
def removeFromEvictable (c : BlockCache) (h : BlockHash) : BlockCache :=
  { c with evictableQueue := c.evictableQueue.filter (fun e => !(e.2.2 == h)) }

/-- First loop of `allocate_blocks` (mock_worker.py lines 111-123): split
the hashes into cached (ref count bumped, unpinned from the queue) and
to-allocate.  `cached` is a Python set, embedded as a dedup list. -/
def allocPhase1 (c : BlockCache) (now : Nat) (blockHashes : List BlockHash) :
    List BlockHash × List BlockHash × BlockCache :=
  blockHashes.foldl
    (fun acc h =>
      match aget acc.2.2.blocks h with
      | some info =>
          let info2 := { info with refCount := info.refCount + 1, lastUsed := now, evictable := false }
          (sadd h acc.1, acc.2.1,
            removeFromEvictable { acc.2.2 with blocks := aset acc.2.2.blocks h info2 } h)
      | none => (acc.1, acc.2.1 ++ [h], acc.2.2))
    ([], [], c)

/-- Second loop of `allocate_blocks` (mock_worker.py lines 126-141): for
each new hash, evict once if at capacity, then insert the fresh block with
`ref_count = 1`. -/
def allocPhase2 (c : BlockCache) (now : Nat) (seqId : String)
    (toAlloc : List BlockHash) : BlockCache :=
  toAlloc.foldl
    (fun c h =>
      let c1 := if c.blocks.length ≥ c.maxBlocks then (evictOldestBlock c).2 else c
      { c1 with
          blocks := aset c1.blocks h
            { refCount := 1
              lastUsed := now
              evictable := false
              sequenceId := some seqId
              blockIndex := toAlloc.length - toAlloc.indexOf h } })
    c

/-- `BlockCache.allocate_blocks` (mock_worker.py lines 103-153). -/
def allocateBlocks (c : BlockCache) (blockHashes : List BlockHash)
    (seqId : String) (now : Nat) :
    (List BlockHash × List BlockHash) × BlockCache :=
  let r1 := allocPhase1 c now blockHashes
  let c2 := allocPhase2 r1.2.2 now seqId r1.2.1
  let c3 := { c2 with sequenceBlocks := aset c2.sequenceBlocks seqId blockHashes }
  let c4 :=
    if blockHashes ∈ c3.activeSequences then c3
    else { c3 with activeSequences := c3.activeSequences ++ [blockHashes] }
  ((r1.1, r1.2.1), c4)

/-- `BlockCache.mark_sequence_complete` (mock_worker.py lines 155-177). -/
def markSequenceComplete (c : BlockCache) (seqId : String) : BlockCache :=
  match aget c.sequenceBlocks seqId with
  | none => c
  | some hs =>
      let c1 := hs.foldl
        (fun c h =>
          match aget c.blocks h with
          | none => c
          | some info =>
              let info2 := { info with refCount := info.refCount - 1 }
              if info2.refCount = 0 then
                { c with
                    blocks := aset c.blocks h { info2 with evictable := true }
                    evictableQueue :=
                      c.evictableQueue ++ [(info2.lastUsed, info2.blockIndex, h)] }
              else
                { c with blocks := aset c.blocks h info2 })
        c
      { c1 with sequenceBlocks := aremove c1.sequenceBlocks seqId }

/-- An empty cache with capacity for a single block. -/
def c5Cache0 : BlockCache := ⟨1, [], [], [], []⟩

/-- After allocating block `"x"` for sequence `"s1"` at time 0: `"x"` is
cached with `ref_count = 1` (pinned, never marked complete). -/
def c5Cache1 : BlockCache := (allocateBlocks c5Cache0 ["x"] "s1" 0).2

/-- After then allocating block `"y"` for sequence `"s2"` at time 1. -/
def c5Cache2 : BlockCache := (allocateBlocks c5Cache1 ["y"] "s2" 1).2

theorem foldl_minLU_mem {α : Type} (f : α → Nat) :
    ∀ (ps : List α) (p : α),
      ps.foldl (fun b y => if f y < f b then y else b) p ∈ p :: ps := by
  intro ps
  induction ps with
  | nil => intro p; exact List.mem_singleton.mpr rfl
  | cons q qs ih =>
      intro p
      show List.foldl _ (if f q < f p then q else p) qs ∈ p :: q :: qs
      by_cases hc : f q < f p
      · rw [if_pos hc]
        exact List.mem_cons_of_mem p (ih q)
      · rw [if_neg hc]
        rcases List.mem_cons.mp (ih p) with h | h
        · rw [h]
          exact List.mem_cons_self p (q :: qs)
        · exact List.mem_cons_of_mem p (List.mem_cons_of_mem q h)

theorem foldl_minLU_le {α : Type} (f : α → Nat) :
    ∀ (ps : List α) (p : α) (y : α), y ∈ p :: ps →
      f (ps.foldl (fun b z => if f z < f b then z else b) p) ≤ f y := by
  intro ps
  induction ps with
  | nil =>
      intro p y hy
      rw [List.mem_singleton] at hy
      rw [hy]
      exact Nat.le_refl _
  | cons q qs ih =>
      intro p y hy
      show f (List.foldl _ (if f q < f p then q else p) qs) ≤ f y
      rcases List.mem_cons.mp hy with h | h
      · rw [h]
        by_cases hc : f q < f p
        · rw [if_pos hc]
          exact Nat.le_trans (ih q q (List.mem_cons_self q qs)) (Nat.le_of_lt hc)
        · rw [if_neg hc]
          exact ih p p (List.mem_cons_self p qs)
      · rcases List.mem_cons.mp h with h2 | h2
        · rw [h2]
          by_cases hc : f q < f p
          · rw [if_pos hc]
            exact ih q q (List.mem_cons_self q qs)
          · rw [if_neg hc]
            exact Nat.le_trans (ih p p (List.mem_cons_self p qs)) (Nat.le_of_not_lt hc)
        · by_cases hc : f q < f p
          · rw [if_pos hc]
            exact ih q y (List.mem_cons_of_mem q h2)
          · rw [if_neg hc]
            exact ih p y (List.mem_cons_of_mem p h2)

theorem evictLoop_safety :
    ∀ (fuel : Nat) (q : List (Nat × Nat × BlockHash))
      (blocks : List (BlockHash × BlockInfo)) (h : BlockHash)
      (q2 : List (Nat × Nat × BlockHash)) (blocks2 : List (BlockHash × BlockInfo)),
      evictLoop fuel q blocks = (some h, q2, blocks2) →
      ∃ info, aget blocks h = some info ∧ info.evictable = true ∧
        info.refCount ≤ 0 ∧ blocks2 = aremove blocks h := by
  intro fuel
  induction fuel with
  | zero =>
      intro q blocks h q2 blocks2 heq
      exact absurd heq (by simp [evictLoop])
  | succ n ih =>
      intro q blocks h q2 blocks2 heq
      rw [evictLoop] at heq
      cases hpop : popMinQ q with
      | none =>
          rw [hpop] at heq
          simp at heq
      | some pr =>
          obtain ⟨e, qrest⟩ := pr
          rw [hpop] at heq
          dsimp only at heq
          cases hget : aget blocks e.2.2 with
          | none =>
              rw [hget] at heq
              exact ih qrest blocks h q2 blocks2 heq
          | some info =>
              rw [hget] at heq
              dsimp only at heq
              by_cases hcond : info.evictable = false ∨ 0 < info.refCount
              · rw [if_pos hcond] at heq
                exact ih qrest blocks h q2 blocks2 heq
              · rw [if_neg hcond] at heq
                push_neg at hcond
                obtain ⟨hev, href⟩ := hcond
                have hev2 : info.evictable = true := by
                  cases hbv : info.evictable with
                  | false => exact absurd hbv hev
                  | true => rfl
                simp only [Prod.mk.injEq, Option.some.injEq] at heq
                obtain ⟨h1, h2, h3⟩ := heq
                subst h1
                exact ⟨info, hget, hev2, href, h3.symm⟩

theorem evictOldestBlock_fallback :
    ∀ (c : BlockCache) (q2 : List (Nat × Nat × BlockHash))
      (b2 : List (BlockHash × BlockInfo)),
      evictLoop c.evictableQueue.length c.evictableQueue c.blocks = (none, q2, b2) →
      c.blocks ≠ [] →
      ∃ h i0, (evictOldestBlock c).1 = some h ∧ (h, i0) ∈ c.blocks ∧
        (∀ e ∈ c.blocks, i0.lastUsed ≤ e.2.lastUsed) ∧
        aget (evictOldestBlock c).2.blocks h = none := by
  intro c q2 b2 hloop hne
  cases hb : c.blocks with
  | nil => exact absurd hb hne
  | cons p ps =>
      set oldest := ps.foldl (fun b y => if y.2.lastUsed < b.2.lastUsed then y else b) p
        with holdest
      have key : evictOldestBlock c =
          (some oldest.1,
            { c with
                blocks := aremove c.blocks oldest.1
                evictableQueue := q2
                activeSequences :=
                  cleanupActive c.activeSequences (aremove c.blocks oldest.1) oldest.1 }) := by
        unfold evictOldestBlock
        rw [hloop]
        rw [hb]
      refine ⟨oldest.1, oldest.2, ?_, ?_, ?_, ?_⟩
      · rw [key]
      · exact foldl_minLU_mem (fun x => x.2.lastUsed) ps p
      · intro e he
        exact foldl_minLU_le (fun x => x.2.lastUsed) ps p e he
      · rw [key]
        show aget (aremove c.blocks oldest.1) oldest.1 = none
        rw [aget_aremove, if_pos rfl]

/-- C5 counterexample: with `max_blocks = 1`, allocating `["x"]` for
sequence `"s1"` leaves `"x"` pinned (`ref_count = 1`, never marked
complete, evictable queue empty).  Allocating `["y"]` for `"s2"` is not
rejected: the queue phase finds nothing, the fallback of
`_evict_oldest_block` deletes the pinned block `"x"` anyway, and `"y"` is
installed — contradicting both "only ever deletes blocks whose ref_count
is 0" and "report and reject". -/
theorem C5_pinned_block_evicted :
    (aget c5Cache1.blocks "x").map BlockInfo.refCount = some 1 ∧
    c5Cache1.evictableQueue = [] ∧
    (allocateBlocks c5Cache1 ["y"] "s2" 1).1.2 = ["y"] ∧
    aget c5Cache2.blocks "x" = none ∧
    (aget c5Cache2.blocks "y").isSome = true := by decide

/-- C5 (amended): the queue phase of `_evict_oldest_block` is safe — any
block it deletes is marked evictable with `ref_count ≤ 0` — but when the
queue yields no candidate and the cache is nonempty, the fallback deletes
the block with minimal `last_used` with no condition whatsoever on its
`ref_count`, and allocation proceeds; no over-commit fault is reported or
rejected. -/
theorem C5_eviction_amended :
    (∀ (fuel : Nat) (q : List (Nat × Nat × BlockHash))
        (blocks : List (BlockHash × BlockInfo)) (h : BlockHash)
        (q2 : List (Nat × Nat × BlockHash)) (blocks2 : List (BlockHash × BlockInfo)),
        evictLoop fuel q blocks = (some h, q2, blocks2) →
        ∃ info, aget blocks h = some info ∧ info.evictable = true ∧
          info.refCount ≤ 0 ∧ blocks2 = aremove blocks h) ∧
    (∀ (c : BlockCache) (q2 : List (Nat × Nat × BlockHash))
        (b2 : List (BlockHash × BlockInfo)),
        evictLoop c.evictableQueue.length c.evictableQueue c.blocks = (none, q2, b2) →
        c.blocks ≠ [] →
        ∃ h i0, (evictOldestBlock c).1 = some h ∧ (h, i0) ∈ c.blocks ∧
          (∀ e ∈ c.blocks, i0.lastUsed ≤ e.2.lastUsed) ∧
          aget (evictOldestBlock c).2.blocks h = none) :=
  ⟨evictLoop_safety, evictOldestBlock_fallback⟩

/-- Witness for C5 (amended): the queue phase at a one-entry queue holding
an unpinned evictable block, and the fallback at the pinned one-block
cache `c5Cache1`. -/
theorem C5_eviction_amended_witness :
    (∃ info, aget [("x", (⟨0, 0, true, none, 0⟩ : BlockInfo))] "x" = some info ∧
      info.evictable = true ∧ info.refCount ≤ 0 ∧
      ([] : List (BlockHash × BlockInfo)) =
        aremove [("x", (⟨0, 0, true, none, 0⟩ : BlockInfo))] "x") ∧
    (∃ h i0, (evictOldestBlock c5Cache1).1 = some h ∧ (h, i0) ∈ c5Cache1.blocks ∧
      (∀ e ∈ c5Cache1.blocks, i0.lastUsed ≤ e.2.lastUsed) ∧
      aget (evictOldestBlock c5Cache1).2.blocks h = none) :=
  ⟨C5_eviction_amended.1 1 [(0, 0, "x")] [("x", ⟨0, 0, true, none, 0⟩)] "x" [] []
      (by decide),
   C5_eviction_amended.2 c5Cache1 [] c5Cache1.blocks (by decide) (by decide)⟩
